import Mathlib

/-!
Verification development for the orderflow feature/label engine
(`src/orderflow/features/microstructure.py`, `labeling.py`, `options_flow.py`
and the `_join_features` logic of `modeling/train.py` / `modeling/score.py`).

Pandas/NumPy float semantics are embedded with two explicit value types:
`Fq` (rational payloads, fully decidable) for intermediate arithmetic that the
source performs on exact inputs, and `F` (real payloads) for final feature
values that may involve logarithms or square roots.  Both carry the IEEE
special values: `inf`, `ninf` and `nan` (the latter standing for every flavour
of "missing": NaN, pd.NA, absent after a left join).
-/

namespace Orderflow

/-- IEEE-style float value with a rational payload.  `nan` is "missing". -/
inductive Fq where
  | fin (q : ℚ)
  | inf
  | ninf
  | nan
deriving DecidableEq

/-- True exactly on the missing value (NaN / pd.NA). -/
def Fq.isNan : Fq → Bool
  | .nan => true
  | _ => false

/-- IEEE subtraction on `Fq` (NaN propagates; inf − inf = NaN). -/
def Fq.sub : Fq → Fq → Fq
  | .nan, _ => .nan
  | .fin _, .nan => .nan
  | .inf, .nan => .nan
  | .ninf, .nan => .nan
  | .fin a, .fin b => .fin (a - b)
  | .fin _, .inf => .ninf
  | .fin _, .ninf => .inf
  | .inf, .inf => .nan
  | .inf, .fin _ => .inf
  | .inf, .ninf => .inf
  | .ninf, .ninf => .nan
  | .ninf, .fin _ => .ninf
  | .ninf, .inf => .ninf

/-- IEEE division on `Fq`: x/0 is ±inf for x ≠ 0 and NaN for 0/0,
NaN propagates, finite/±inf is 0, inf/inf is NaN. -/
def Fq.div : Fq → Fq → Fq
  | .nan, _ => .nan
  | .fin _, .nan => .nan
  | .inf, .nan => .nan
  | .ninf, .nan => .nan
  | .fin a, .fin b =>
      if b = 0 then (if a = 0 then .nan else if 0 < a then .inf else .ninf)
      else .fin (a / b)
  | .fin _, .inf => .fin 0
  | .fin _, .ninf => .fin 0
  | .inf, .fin b => if 0 ≤ b then .inf else .ninf
  | .ninf, .fin b => if 0 ≤ b then .ninf else .inf
  | .inf, .inf => .nan
  | .inf, .ninf => .nan
  | .ninf, .inf => .nan
  | .ninf, .ninf => .nan

/-- IEEE-style float value with a real payload, for feature values that
involve `log` or `sqrt`.  `nan` is "missing". -/
inductive F where
  | fin (r : ℝ)
  | inf
  | ninf
  | nan

/-- True exactly on the missing value (NaN / pd.NA). -/
def F.isNan : F → Bool
  | .nan => true
  | _ => false

/-- IEEE subtraction on `F` (NaN propagates; inf − inf = NaN). -/
noncomputable def F.sub : F → F → F
  | .nan, _ => .nan
  | .fin _, .nan => .nan
  | .inf, .nan => .nan
  | .ninf, .nan => .nan
  | .fin a, .fin b => .fin (a - b)
  | .fin _, .inf => .ninf
  | .fin _, .ninf => .inf
  | .inf, .inf => .nan
  | .inf, .fin _ => .inf
  | .inf, .ninf => .inf
  | .ninf, .ninf => .nan
  | .ninf, .fin _ => .ninf
  | .ninf, .inf => .ninf

/-- Injection of the decidable float model into the real one. -/
noncomputable def Fq.toF : Fq → F
  | .fin q => .fin (q : ℝ)
  | .inf => .inf
  | .ninf => .ninf
  | .nan => .nan

/-- Embeds `np.log` on a float: positive → log, zero → −inf, negative → NaN. -/
noncomputable def npLog (q : ℚ) : F :=
  if 0 < q then .fin (Real.log (q : ℝ)) else if q = 0 then .ninf else .nan

/-! ## Bar panel (`timestamp, open, high, low, close, volume` rows) -/

/-- One OHLCV bar.  `ts` is the (integer) timestamp; `open_` embeds the
`open` column (the bare name is a Lean keyword). -/
structure Bar where
  ts : ℤ
  open_ : ℚ
  high : ℚ
  low : ℚ
  close : ℚ
  volume : ℚ
deriving DecidableEq

/-- The default bar used by out-of-range `getD` accesses. -/
def bar0 : Bar := ⟨0, 0, 0, 0, 0, 0⟩

/-- Embeds `_ensure_dt_index` sorts the frame by timestamp (`sort_index`). -/
def sortBars (bs : List Bar) : List Bar :=
  List.insertionSort (fun a b => a.ts ≤ b.ts) bs

/-- A panel whose timestamps are strictly increasing (the Bar Panel invariant:
within a symbol, timestamps are strictly increasing and unique). -/
def ChronoSorted (bs : List Bar) : Prop :=
  bs.Pairwise (fun a b => a.ts < b.ts)

instance (bs : List Bar) : Decidable (ChronoSorted bs) :=
  inferInstanceAs (Decidable (bs.Pairwise (fun (a b : Bar) => a.ts < b.ts)))

/-- The `close` column of a panel. -/
def closes (bs : List Bar) : List ℚ := bs.map (·.close)

/-- Embeds `close` at row `i` (0 outside the panel; only used in range). -/
def closeAt (bs : List Bar) (i : ℕ) : ℚ := (closes bs).getD i 0

/-! ## Microstructure features (`microstructure.py`) -/

/-- Embeds `ret_1 = np.log(df["close"]).diff()`: one-bar log return, NaN at row 0. -/
noncomputable def retAt (bs : List Bar) (i : ℕ) : F :=
  if i = 0 then .nan else F.sub (npLog (closeAt bs i)) (npLog (closeAt bs (i - 1)))

/-- The `ret_1` series of a panel. -/
noncomputable def retCol (bs : List Bar) : List F :=
  (List.range bs.length).map (retAt bs)

/-- Embeds `np.sign` on a rational. -/
def signQ (q : ℚ) : ℚ := if 0 < q then 1 else if q < 0 then -1 else 0

/-- Embeds `delta_vol = sign(close − open) * volume` (`_cvd_proxy`). -/
def deltaVolAt (b : Bar) : ℚ := signQ (b.close - b.open_) * b.volume

/-- Embeds `cvd_proxy[i] = delta.cumsum()[i]`: the running sum of `delta_vol`. -/
def cvdAt (bs : List Bar) (i : ℕ) : ℚ := ((bs.take (i + 1)).map deltaVolAt).sum

/-- The `cvd_proxy` series of a panel. -/
def cvdQ (bs : List Bar) : List ℚ := (List.range bs.length).map (cvdAt bs)

/-- The `delta_vol` series of a panel. -/
def deltaCol (bs : List Bar) : List ℚ := bs.map deltaVolAt

/-- Embeds `up = volume if close > open else 0` (`_bar_imbalance`). -/
def upVol (b : Bar) : ℚ := if b.open_ < b.close then b.volume else 0

/-- Embeds `dn = volume if close < open else 0` (`_bar_imbalance`). -/
def dnVol (b : Bar) : ℚ := if b.close < b.open_ then b.volume else 0

/-- Embeds `bar_imbalance = (up − dn) / (up + dn)`, where a zero denominator is
replaced by NaN before dividing and the resulting NaN is filled with 0.0
(`np.where(denom == 0, np.nan, denom)` followed by `.fillna(0.0)`). -/
def barImbAt (b : Bar) : ℚ :=
  if upVol b + dnVol b = 0 then 0 else (upVol b - dnVol b) / (upVol b + dnVol b)

/-- The `bar_imbalance` series of a panel. -/
def barImbCol (bs : List Bar) : List ℚ := bs.map barImbAt

/-- Typical price `(high + low + close) / 3` (`_running_vwap`). -/
def typPrice (b : Bar) : ℚ := (b.high + b.low + b.close) / 3

/-- Embeds `vwap[i] = cum(typ*vol)[i] / cum(vol)[i]`, with a zero cumulative volume
replaced by NaN (`.replace(0, np.nan)`) so the quotient is missing there. -/
noncomputable def vwapAt (bs : List Bar) (i : ℕ) : F :=
  if ((bs.take (i + 1)).map (·.volume)).sum = 0 then .nan
  else .fin ((((bs.take (i + 1)).map (fun b => typPrice b * b.volume)).sum
      / ((bs.take (i + 1)).map (·.volume)).sum : ℚ) : ℝ)

/-- The `vwap` series of a panel. -/
noncomputable def vwapCol (bs : List Bar) : List F :=
  (List.range bs.length).map (vwapAt bs)

/-! ## Rolling statistics (`rolling(n, min_periods=max(2, n // 3))`) -/

/-- The minimum-observation threshold `max(2, n // 3)`. -/
def minObs (n : ℕ) : ℕ := max 2 (n / 3)

/-- The trailing window of length at most `n` ending at index `i` inclusive. -/
def window (s : List Fq) (n i : ℕ) : List Fq := (s.take (i + 1)).drop (i + 1 - n)

/-- The present (finite) observations of a window; pandas rolling statistics
skip NaN entries. -/
def finObs (l : List Fq) : List ℚ :=
  l.filterMap (fun x => match x with | .fin q => some q | _ => none)

/-- Whether a window contains an infinite value (in which case the pandas
rolling moments degenerate to NaN). -/
def hasInfty (l : List Fq) : Bool :=
  l.any (fun x => match x with | .inf => true | .ninf => true | _ => false)

/-- Mean of a list of rationals. -/
def meanQ (l : List ℚ) : ℚ := l.sum / l.length

/-- Population variance (`ddof=0`) of a list of rationals. -/
def varPop (l : List ℚ) : ℚ := (l.map (fun x => (x - meanQ l) ^ 2)).sum / l.length

/-- The decidable scaffolding of `_zscore` at index `i`: the current value,
the rolling mean and the rolling population variance, or `none` whenever the
z-score is missing for structural reasons (warm-up below `min_periods`, an
infinite window entry, or a missing current value). -/
def zMeta (s : List Fq) (n i : ℕ) : Option (ℚ × ℚ × ℚ) :=
  if hasInfty (window s n i) then none
  else if (finObs (window s n i)).length < minObs n then none
  else match s.getD i .nan with
    | .fin x =>
        some (x, meanQ (finObs (window s n i)), varPop (finObs (window s n i)))
    | _ => none

/-- Embeds `_zscore` at index `i`: `(series − roll.mean()) / roll.std(ddof=0)` under
IEEE float division.  `std = sqrt(var)` is zero exactly when `var = 0`, in
which case the quotient is NaN for a zero numerator and ±inf otherwise;
a positive variance yields the finite quotient.  (The helper is line-for-line
identical in `microstructure.py` and `options_flow.py`.) -/
noncomputable def zAt (s : List Fq) (n i : ℕ) : F :=
  match zMeta s n i with
  | none => .nan
  | some (x, m, v) =>
      if v = 0 then (if x = m then .nan else if m < x then .inf else .ninf)
      else .fin (((x : ℝ) - (m : ℝ)) / Real.sqrt (v : ℝ))

/-- The z-score series of a float series. -/
noncomputable def zCol (s : List Fq) (n : ℕ) : List F :=
  (List.range s.length).map (zAt s n)

/-- The trailing window on `F`-valued series (for `_rolling_vol`). -/
def windowF (s : List F) (n i : ℕ) : List F := (s.take (i + 1)).drop (i + 1 - n)

/-- The present (finite) observations of an `F` window. -/
def finObsF (l : List F) : List ℝ :=
  l.filterMap (fun x => match x with | .fin r => some r | _ => none)

/-- Whether an `F` window contains an infinite value. -/
def hasInfF (l : List F) : Bool :=
  l.any (fun x => match x with | .inf => true | .ninf => true | _ => false)

/-- Mean of a list of reals. -/
noncomputable def meanR (l : List ℝ) : ℝ := l.sum / l.length

/-- Sample variance (`ddof=1`, the pandas `.std()` default used by
`_rolling_vol`). -/
noncomputable def varSamp (l : List ℝ) : ℝ :=
  (l.map (fun x => (x - meanR l) ^ 2)).sum / ((l.length : ℝ) - 1)

/-- Embeds `_rolling_vol`: rolling sample standard deviation of `ret_1` over `n`
bars with `min_periods = max(2, n // 3)`. -/
noncomputable def rollVolAt (s : List F) (n i : ℕ) : F :=
  if hasInfF (windowF s n i) then .nan
  else if (finObsF (windowF s n i)).length < minObs n then .nan
  else .fin (Real.sqrt (varSamp (finObsF (windowF s n i))))

/-- The `vol_rolling_{n}` series of a return series. -/
noncomputable def rollVolCol (s : List F) (n : ℕ) : List F :=
  (List.range s.length).map (rollVolAt s n)

/-! ## Feature tables -/

/-- A feature table: a timestamp index plus named columns, every column as
long as the index. -/
structure MTable where
  times : List ℤ
  cols : List (String × List F)

/-- The empty table (`pd.DataFrame()`). -/
def MTable.empty : MTable := ⟨[], []⟩

/-- Column access by name; `[]` when the column is absent. -/
def getCol (t : MTable) (name : String) : List F :=
  ((t.cols.find? (fun p => p.1 == name)).map Prod.snd).getD []

/-- Python `str.lower()` (characterwise lowercasing; the built-in
`String.toLower` does not reduce definitionally). -/
def strLower (s : String) : String := ⟨s.data.map Char.toLower⟩

/-- The realized-volatility windows chosen per cadence in `_compute_for_one`:
`[24, 24*7]` for hourly data, `[5, 22]` otherwise. -/
def volWindows (freq : String) : List ℕ :=
  if strLower freq = "1h" then [24, 168] else [5, 22]

/-- Embeds `_compute_for_one`: sort by timestamp, then produce the microstructure
feature columns in the `pd.concat` order of the source. -/
noncomputable def computeForOne (bars : List Bar) (freq : String) : MTable :=
  let b := sortBars bars
  ⟨b.map (·.ts),
    [("ret_1", retCol b),
     ("delta_vol", (deltaCol b).map (fun (q : ℚ) => F.fin (q : ℝ))),
     ("cvd_proxy", (cvdQ b).map (fun (q : ℚ) => F.fin (q : ℝ))),
     ("cvd_z_50", zCol ((cvdQ b).map Fq.fin) 50),
     ("cvd_z_200", zCol ((cvdQ b).map Fq.fin) 200),
     ("bar_imbalance", (barImbCol b).map (fun (q : ℚ) => F.fin (q : ℝ))),
     ("vwap", vwapCol b)]
    ++ (volWindows freq).map (fun n => ("vol_rolling_" ++ toString n, rollVolCol (retCol b) n))⟩

/-! ## Label generation (`labeling.py`) -/

/-- Decimal value of a digit string. -/
def digitsVal (l : List Char) : ℕ :=
  l.foldl (fun acc c => 10 * acc + (c.toNat - '0'.toNat)) 0

/-- Python `int()` on the horizon prefix: an optional sign followed by a
nonempty run of decimal digits, `none` when parsing fails (the uncaught
`ValueError`).  Python additionally strips surrounding whitespace and allows
inner underscores; those inputs are outside the horizon forms considered by
the theorems below. -/
def pyInt (s : String) : Option ℤ :=
  match s.data with
  | [] => none
  | c :: rest =>
    if c = '+' then
      (if rest ≠ [] ∧ rest.all Char.isDigit then some (digitsVal rest : ℤ) else none)
    else if c = '-' then
      (if rest ≠ [] ∧ rest.all Char.isDigit then some (-(digitsVal rest : ℤ)) else none)
    else if (c :: rest).all Char.isDigit then some (digitsVal (c :: rest) : ℤ) else none

/-- Embeds `day_bars`: 24 bars per calendar day at hourly cadence, 1 at daily. -/
def dayBars (freq : String) : ℤ := if strLower freq = "1h" then 24 else 1

/-- The general suffix of `_horizon_periods`, past the `1d`/`1w`/`1m` alias
checks: `unit = horizon[-1].lower()`, `val = int(horizon[:-1])` (whose
`ValueError` propagates), then the unit dispatch.  The character list is the
data of the horizon string; an empty horizon raises (`IndexError` on
`horizon[-1]`). -/
def horizonTail (day : ℤ) (hz : String) (l : List Char) : Except String ℤ :=
  if l = [] then .error "empty horizon string"
  else
    match pyInt ⟨l.dropLast⟩ with
    | none => .error ("invalid int literal in horizon " ++ hz)
    | some v =>
      if (l.getLastD ' ').toLower = 'd' then .ok (day * v)
      else if (l.getLastD ' ').toLower = 'w' then .ok (day * (7 * v))
      else if (l.getLastD ' ').toLower = 'm' then .ok (day * (30 * v))
      else .error ("Unrecognized horizon format: " ++ hz)

/-- Embeds `_horizon_periods`: map a horizon string to a bar count for the given
cadence, raising (returning `.error`) for an unsupported frequency, an empty
horizon, an unparseable integer prefix or an unknown unit letter. -/
def horizonPeriods (freq hz : String) : Except String ℤ :=
  if strLower freq ≠ "1h" ∧ strLower freq ≠ "1d" then
    .error ("Unsupported frequency " ++ freq)
  else
    if hz = "1d" then .ok (dayBars freq)
    else if hz = "1w" then .ok (dayBars freq * 7)
    else if hz = "1m" then .ok (dayBars freq * 30)
    else horizonTail (dayBars freq) hz hz.data

/-- Embeds `close.shift(-p)` at index `i`: the close `p` rows ahead, NaN out of
range. -/
def shiftedClose (cs : List ℚ) (p : ℤ) (i : ℕ) : Fq :=
  if 0 ≤ (i : ℤ) + p ∧ (i : ℤ) + p < cs.length then
    .fin (cs.getD ((i : ℤ) + p).toNat 0)
  else .nan

/-- The guard of `_forward_log_return`: `math.log(x) if pd.notna(x) and x > 0
else pd.NA`.  `+inf` is not NA and is `> 0`, and `math.log(inf) = inf`. -/
noncomputable def pyLogGuard : Fq → F
  | .nan => .nan
  | .ninf => .nan
  | .inf => .inf
  | .fin q => if 0 < q then .fin (Real.log (q : ℝ)) else .nan

/-- Embeds `_forward_log_return`: `ln(close.shift(-p) / close)` under the guard. -/
noncomputable def forwardLogReturn (cs : List ℚ) (p : ℤ) : List F :=
  (List.range cs.length).map
    (fun i => pyLogGuard (Fq.div (shiftedClose cs p i) (.fin (cs.getD i 0))))

/-- Embeds `compute_labels` on the single-series path (DatetimeIndex, no `symbol`
column): sort by timestamp, then one `fwd_ret_<hz>` column per horizon, each
obtained by the fixed bar-count shift `_forward_log_return`; a
`_horizon_periods` failure aborts the whole computation (fail fast). -/
noncomputable def computeLabels (bars : List Bar) (horizons : List String)
    (freq : String) : Except String (List (String × List F)) :=
  let b := sortBars bars
  horizons.mapM (fun hz =>
    (horizonPeriods freq hz).map
      (fun p => ("fwd_ret_" ++ hz, forwardLogReturn (closes b) p)))

/-- Modelled from the spec: the calendar-time alignment mode, which is absent
from `labeling.py`.  For each observation at `t`, pair it with the earliest
observation whose time is `≥ t + offset` (forward, no interpolation) and set
the label to `close_future / close − 1`; missing when no such observation
exists.  `offset` is the horizon expressed in the timestamp unit. -/
def calendarLabelAt (bars : List Bar) (offset : ℤ) (i : ℕ) : F :=
  let cur := bars.getD i bar0
  match bars.find? (fun x => cur.ts + offset ≤ x.ts) with
  | some fb => .fin ((fb.close / cur.close - 1 : ℚ) : ℝ)
  | none => .nan

/-- Modelled from the spec: the calendar-time label series. -/
def calendarLabels (bars : List Bar) (offset : ℤ) : List F :=
  (List.range bars.length).map (calendarLabelAt bars offset)

/-! ## Options flow features (`options_flow.py`) -/

/-- The pre-aggregated options table.  Column presence is table-level
(`name in df.columns`), hence the `Option` columns; present columns are as
long as the index. -/
structure OptsIn where
  times : List ℤ
  put_volume : Option (List ℚ)
  call_volume : Option (List ℚ)
  at_ask_volume : Option (List ℚ)
  at_bid_volume : Option (List ℚ)
  total_volume : Option (List ℚ)
  iv_atm : Option (List ℚ)
  iv_25d_call : Option (List ℚ)
  iv_25d_put : Option (List ℚ)
  open_interest : Option (List ℚ)
deriving DecidableEq

/-- The row permutation performed by `df.sort_index()`: indices sorted by
timestamp, stably (ties keep their original order). -/
def argsortIdx (ts : List ℤ) : List ℕ :=
  List.insertionSort
    (fun i j => ts.getD i 0 < ts.getD j 0 ∨ (ts.getD i 0 = ts.getD j 0 ∧ i ≤ j))
    (List.range ts.length)

/-- Reorder a rational column by the sort permutation. -/
def applyPerm (p : List ℕ) (c : List ℚ) : List ℚ := p.map (fun i => c.getD i 0)

/-- Reorder a float column by the sort permutation. -/
def applyPermFq (p : List ℕ) (c : List Fq) : List Fq := p.map (fun i => c.getD i .nan)

/-- The sorted timestamp index of an options table. -/
def sortedTimes (t : OptsIn) : List ℤ :=
  (argsortIdx t.times).map (fun i => t.times.getD i 0)

/-- A volume-like column after sorting, defaulting to a zero series when the
column is absent (`col(name)` with `default=0.0`). -/
def colQ (t : OptsIn) (oc : Option (List ℚ)) : List ℚ :=
  applyPerm (argsortIdx t.times) (oc.getD (List.replicate t.times.length 0))

/-- An IV/OI-like column after sorting, defaulting to an all-NaN series when
absent (`col(name, default=np.nan)`). -/
def colF (t : OptsIn) (oc : Option (List ℚ)) : List Fq :=
  applyPermFq (argsortIdx t.times)
    (match oc with
     | some l => l.map Fq.fin
     | none => List.replicate t.times.length Fq.nan)

/-- Embeds `total_volume`, defaulting to `put_volume + call_volume` when absent. -/
def totColQ (t : OptsIn) : List ℚ :=
  match t.total_volume with
  | some l => applyPerm (argsortIdx t.times) l
  | none => List.zipWith (· + ·) (colQ t t.put_volume) (colQ t t.call_volume)

/-- Embeds `.replace(0, np.nan)` on a float series. -/
def replaceZeroNan (l : List Fq) : List Fq :=
  l.map (fun x => if x = .fin 0 then .nan else x)

/-- Embeds `.fillna(0.0)` on a float series. -/
def fillnaZero (l : List Fq) : List Fq :=
  l.map (fun x => if x = .nan then .fin 0 else x)

/-- Embeds `_safe_ratio`: replace a zero denominator by NaN, divide, then fill the
missing results with 0.0. -/
def safeDiv0 (num den : List Fq) : List Fq :=
  fillnaZero (List.zipWith Fq.div num (replaceZeroNan den))

/-- Embeds `pcr = _safe_ratio(put_volume, call_volume.replace(0, np.nan))`. -/
def pcrCol (t : OptsIn) : List Fq :=
  safeDiv0 ((colQ t t.put_volume).map Fq.fin)
    (replaceZeroNan ((colQ t t.call_volume).map Fq.fin))

/-- Embeds `at_ask_bias = _safe_ratio(ask − bid, total.replace(0, np.nan))`. -/
def atAskBiasCol (t : OptsIn) : List Fq :=
  safeDiv0
    ((List.zipWith (· - ·) (colQ t t.at_ask_volume) (colQ t t.at_bid_volume)).map Fq.fin)
    (replaceZeroNan ((totColQ t).map Fq.fin))

/-- Embeds `opt_vol_intensity = total_volume.rolling(5, min_periods=1).mean()`. -/
def rollMean5 (l : List ℚ) : List ℚ :=
  (List.range l.length).map (fun i => meanQ ((l.take (i + 1)).drop (i + 1 - 5)))

/-- Embeds `_diff`: first difference of a float series, NaN at row 0. -/
def diffFq (s : List Fq) : List Fq :=
  (List.range s.length).map
    (fun i => if i = 0 then .nan else Fq.sub (s.getD i .nan) (s.getD (i - 1) .nan))

/-- Embeds `skew_25d = iv_25d_put − iv_25d_call` (missing propagates). -/
def skewCol (t : OptsIn) : List Fq :=
  List.zipWith Fq.sub (colF t t.iv_25d_put) (colF t t.iv_25d_call)

/-- Embeds `_features_for_one`: the options feature columns in the
`pd.concat` order, on the sorted table. -/
noncomputable def optionsFeaturesTable (t : OptsIn) : MTable :=
  ⟨sortedTimes t,
   [("pcr", (pcrCol t).map Fq.toF),
    ("at_ask_bias", (atAskBiasCol t).map Fq.toF),
    ("opt_vol_intensity", (rollMean5 (totColQ t)).map (fun (q : ℚ) => F.fin (q : ℝ))),
    ("iv_atm", (colF t t.iv_atm).map Fq.toF),
    ("skew_25d", (skewCol t).map Fq.toF),
    ("d_iv_atm", (diffFq (colF t t.iv_atm)).map Fq.toF),
    ("d_skew_25d", (diffFq (skewCol t)).map Fq.toF),
    ("open_interest", (colF t t.open_interest).map Fq.toF),
    ("d_oi", (diffFq (colF t t.open_interest)).map Fq.toF),
    ("pcr_z_50", zCol (pcrCol t) 50),
    ("at_ask_bias_z_50", zCol (atAskBiasCol t) 50)]⟩

/-- The options calculator entry point: an absent or empty input table yields
an empty output table (`write_parquet(pd.DataFrame(), ...)`), otherwise the
feature table. -/
noncomputable def optionsMain (inp : Option OptsIn) : MTable :=
  match inp with
  | none => MTable.empty
  | some t => if t.times.isEmpty then MTable.empty else optionsFeaturesTable t

/-! ## Panel joiner (`_join_features` of `train.py` / `score.py`,
single-symbol path) -/

/-- Index lookup of a left join on the timestamp index: the options value at
the (first) matching timestamp, NaN when the timestamp is absent. -/
def lookupTime (ots : List ℤ) (c : List F) (t : ℤ) : F :=
  match ots.findIdx? (fun x => x == t) with
  | some j => c.getD j .nan
  | none => .nan

/-- Embeds `micro.join(opts, how="left")`: keep every microstructure row and attach
each options column by timestamp. -/
def joinOnly (m o : MTable) : MTable :=
  ⟨m.times, m.cols ++ o.cols.map (fun p => (p.1, m.times.map (lookupTime o.times p.2)))⟩

/-- One pass of `ffill(limit=2)`: `carry` is the last present value seen,
`gap` the number of consecutive missing rows already emitted since it. -/
def ffillGo (carry : Option F) (gap : ℕ) : List F → List F
  | [] => []
  | x :: xs =>
    if x.isNan = true then
      match carry with
      | some v => (if gap < 2 then v else x) :: ffillGo carry (gap + 1) xs
      | none => x :: ffillGo none gap xs
    else x :: ffillGo (some x) 0 xs

/-- Embeds `ffill(limit=2)` on one column. -/
def ffillLimit2 (l : List F) : List F := ffillGo none 0 l

/-- Apply a column transform to every column of a table. -/
def mapCols (f : List F → List F) (t : MTable) : MTable :=
  ⟨t.times, t.cols.map (fun p => (p.1, f p.2))⟩

/-- Embeds `_join_features` (single-symbol path): when the options table is empty the
features are the microstructure table itself, otherwise the left join; in
both cases `ffill(limit=2)` is then applied to the whole frame. -/
def joinFeatures (m : MTable) (o : Option MTable) : MTable :=
  match o with
  | none => mapCols ffillLimit2 m
  | some ot => mapCols ffillLimit2 (joinOnly m ot)

/-! ## Generic list access lemmas -/

theorem getD_range_map {α : Type} (f : ℕ → α) (n i : ℕ) (d : α) :
    ((List.range n).map f).getD i d = if i < n then f i else d := by
  rw [List.getD_eq_getElem?_getD, List.getElem?_map]
  by_cases h : i < n
  · simp [List.getElem?_range h, h]
  · rw [List.getElem?_eq_none (by simpa using le_of_not_lt h)]
    simp [h]

theorem getD_take_eq {α : Type} (l : List α) (k i : ℕ) (d : α) (h : i < k) :
    (l.take k).getD i d = l.getD i d := by
  rw [List.getD_eq_getElem?_getD, List.getD_eq_getElem?_getD, List.getElem?_take]
  simp [h]

theorem getD_map_lt {α β : Type} (f : α → β) (l : List α) (i : ℕ) (d : β) (d' : α)
    (h : i < l.length) : (l.map f).getD i d = f (l.getD i d') := by
  rw [List.getD_eq_getElem?_getD, List.getElem?_map, List.getElem?_eq_getElem h,
    List.getD_eq_getElem?_getD, List.getElem?_eq_getElem h]
  rfl

theorem getD_zipWith_lt {α β γ : Type} (f : α → β → γ) (a : List α) (b : List β)
    (i : ℕ) (d : γ) (da : α) (db : β) (h1 : i < a.length) (h2 : i < b.length) :
    (List.zipWith f a b).getD i d = f (a.getD i da) (b.getD i db) := by
  rw [List.getD_eq_getElem?_getD, List.getElem?_zipWith, List.getElem?_eq_getElem h1,
    List.getElem?_eq_getElem h2, List.getD_eq_getElem a da h1, List.getD_eq_getElem b db h2]
  rfl

/-! ## Lemmas about `ffill(limit=2)` -/

theorem ffillGo_length (l : List F) : ∀ (c : Option F) (g : ℕ),
    (ffillGo c g l).length = l.length := by
  induction l with
  | nil => intro c g; rfl
  | cons x xs ih =>
    intro c g
    by_cases hx : x.isNan = true
    · cases c with
      | some v => simp [ffillGo, hx, ih]
      | none => simp [ffillGo, hx, ih]
    · simp [ffillGo, hx, ih]

theorem ffillGo_keep (l : List F) : ∀ (c : Option F) (g i : ℕ), i < l.length →
    (l.getD i F.nan).isNan = false →
    (ffillGo c g l).getD i F.nan = l.getD i F.nan := by
  induction l with
  | nil => intro c g i hi _; simp at hi
  | cons x xs ih =>
    intro c g i hi hp
    cases i with
    | zero =>
      have hx : x.isNan = false := by simpa using hp
      simp [ffillGo, hx]
    | succ j =>
      have hj : j < xs.length := by simpa using hi
      have hp' : (xs.getD j F.nan).isNan = false := by simpa using hp
      by_cases hx : x.isNan = true
      · cases c with
        | some v => simpa [ffillGo, hx] using ih _ _ _ hj hp'
        | none => simpa [ffillGo, hx] using ih _ _ _ hj hp'
      · simpa [ffillGo, hx] using ih _ _ _ hj hp'

theorem ffillGo_fill1 (l : List F) : ∀ (c : Option F) (g i : ℕ), i + 1 < l.length →
    (l.getD i F.nan).isNan = false → (l.getD (i + 1) F.nan).isNan = true →
    (ffillGo c g l).getD (i + 1) F.nan = l.getD i F.nan := by
  induction l with
  | nil => intro c g i hi _ _; simp at hi
  | cons x xs ih =>
    intro c g i hi hp hnan
    cases i with
    | zero =>
      have hx : x.isNan = false := by simpa using hp
      cases xs with
      | nil => simp at hi
      | cons y ys =>
        have hy : y.isNan = true := by simpa using hnan
        simp [ffillGo, hx, hy]
    | succ j =>
      have hj : j + 1 < xs.length := by simpa using hi
      have hp' : (xs.getD j F.nan).isNan = false := by simpa using hp
      have hn' : (xs.getD (j + 1) F.nan).isNan = true := by simpa using hnan
      by_cases hx : x.isNan = true
      · cases c with
        | some v => simpa [ffillGo, hx] using ih _ _ _ hj hp' hn'
        | none => simpa [ffillGo, hx] using ih _ _ _ hj hp' hn'
      · simpa [ffillGo, hx] using ih _ _ _ hj hp' hn'

theorem ffillGo_fill2 (l : List F) : ∀ (c : Option F) (g i : ℕ), i + 2 < l.length →
    (l.getD i F.nan).isNan = false → (l.getD (i + 1) F.nan).isNan = true →
    (l.getD (i + 2) F.nan).isNan = true →
    (ffillGo c g l).getD (i + 2) F.nan = l.getD i F.nan := by
  induction l with
  | nil => intro c g i hi _ _ _; simp at hi
  | cons x xs ih =>
    intro c g i hi hp hn1 hn2
    cases i with
    | zero =>
      have hx : x.isNan = false := by simpa using hp
      match xs, hi with
      | y :: z :: zs, _ =>
        have hy : y.isNan = true := by simpa using hn1
        have hz : z.isNan = true := by simpa using hn2
        simp [ffillGo, hx, hy, hz]
    | succ j =>
      have hj : j + 2 < xs.length := by simp only [List.length_cons] at hi; omega
      have hp' : (xs.getD j F.nan).isNan = false := by simpa using hp
      have hn1' : (xs.getD (j + 1) F.nan).isNan = true := by simpa using hn1
      have hn2' : (xs.getD (j + 2) F.nan).isNan = true := by simpa using hn2
      by_cases hx : x.isNan = true
      · cases c with
        | some v => simpa [ffillGo, hx] using ih _ _ _ hj hp' hn1' hn2'
        | none => simpa [ffillGo, hx] using ih _ _ _ hj hp' hn1' hn2'
      · simpa [ffillGo, hx] using ih _ _ _ hj hp' hn1' hn2'

theorem ffillGo_nofill3 (l : List F) : ∀ (c : Option F) (g i : ℕ), i + 2 < l.length →
    (l.getD i F.nan).isNan = true → (l.getD (i + 1) F.nan).isNan = true →
    (l.getD (i + 2) F.nan).isNan = true →
    ((ffillGo c g l).getD (i + 2) F.nan).isNan = true := by
  induction l with
  | nil => intro c g i hi _ _ _; simp at hi
  | cons x xs ih =>
    intro c g i hi hn0 hn1 hn2
    cases i with
    | zero =>
      have hx : x.isNan = true := by simpa using hn0
      match xs, hi with
      | y :: z :: zs, _ =>
        have hy : y.isNan = true := by simpa using hn1
        have hz : z.isNan = true := by simpa using hn2
        cases c with
        | some v =>
          have hgap : ¬ (g + 1 + 1 < 2) := by omega
          simp [ffillGo, hx, hy, hz, hgap]
        | none => simp [ffillGo, hx, hy, hz]
    | succ j =>
      have hj : j + 2 < xs.length := by simp only [List.length_cons] at hi; omega
      have hn0' : (xs.getD j F.nan).isNan = true := by simpa using hn0
      have hn1' : (xs.getD (j + 1) F.nan).isNan = true := by simpa using hn1
      have hn2' : (xs.getD (j + 2) F.nan).isNan = true := by simpa using hn2
      by_cases hx : x.isNan = true
      · cases c with
        | some v => simpa [ffillGo, hx] using ih _ _ _ hj hn0' hn1' hn2'
        | none => simpa [ffillGo, hx] using ih _ _ _ hj hn0' hn1' hn2'
      · simpa [ffillGo, hx] using ih _ _ _ hj hn0' hn1' hn2'

theorem find?_map_cols (f : List F → List F) (cols : List (String × List F))
    (name : String) :
    (cols.map (fun p => (p.1, f p.2))).find? (fun p => p.1 == name)
      = (cols.find? (fun p => p.1 == name)).map (fun p => (p.1, f p.2)) := by
  induction cols with
  | nil => rfl
  | cons c cs ih =>
    by_cases h : (c.1 == name) = true
    · simp only [List.map_cons, List.find?, h]
      rfl
    · have h2 : (c.1 == name) = false := by simpa using h
      simp only [List.map_cons, List.find?, h2, ih]

theorem getCol_mapCols (f : List F → List F) (t : MTable) (name : String)
    (hf : f [] = []) : getCol (mapCols f t) name = f (getCol t name) := by
  unfold getCol mapCols
  simp only [find?_map_cols]
  cases t.cols.find? (fun p => p.1 == name) with
  | none => simpa using hf.symm
  | some p => rfl

/-! ## Z-score degeneracy lemmas -/

theorem self_mem_window (s : List Fq) (n i : ℕ) (hi : i < s.length) (hn : 0 < n) :
    s.getD i .nan ∈ window s n i := by
  have hlt : i < (s.take (i + 1)).length := by
    simp only [List.length_take]; omega
  have hk : i + 1 - n ≤ i := by omega
  have h2 : i - (i + 1 - n) < ((s.take (i + 1)).drop (i + 1 - n)).length := by
    simp only [List.length_drop, List.length_take]; omega
  have h3 : ((s.take (i + 1)).drop (i + 1 - n)).get ⟨i - (i + 1 - n), h2⟩ ∈ window s n i :=
    List.get_mem _ _ h2
  have h4 : ((s.take (i + 1)).drop (i + 1 - n)).get ⟨i - (i + 1 - n), h2⟩
      = (s.take (i + 1)).get ⟨i, hlt⟩ := by
    simp only [List.get_eq_getElem]
    rw [List.getElem_drop (s.take (i + 1))]
    congr 1
    omega
  have h5 : (s.take (i + 1)).get ⟨i, hlt⟩ = s.get ⟨i, hi⟩ := by
    simp only [List.get_eq_getElem]
    exact List.getElem_take s
  have h6 : s.getD i .nan = s.get ⟨i, hi⟩ := by
    simp only [List.get_eq_getElem]
    exact List.getD_eq_getElem s .nan hi
  rw [h6, ← h5, ← h4]
  exact h3

theorem finObs_const (w : List Fq) (q0 : ℚ) (hc : ∀ x ∈ w, x = .fin q0) :
    finObs w = List.replicate w.length q0 := by
  induction w with
  | nil => rfl
  | cons x xs ih =>
    have hx : x = .fin q0 := hc x (by simp)
    subst hx
    simp only [finObs, List.filterMap_cons, List.length_cons, List.replicate_succ]
    exact congrArg (q0 :: ·) (ih (fun y hy => hc y (by simp [hy])))

theorem meanQ_replicate (k : ℕ) (q0 : ℚ) (hk : k ≠ 0) :
    meanQ (List.replicate k q0) = q0 := by
  simp only [meanQ, List.sum_replicate, List.length_replicate, nsmul_eq_mul]
  field_simp

theorem varPop_replicate (k : ℕ) (q0 : ℚ) (hk : k ≠ 0) :
    varPop (List.replicate k q0) = 0 := by
  simp [varPop, meanQ_replicate k q0 hk, List.map_replicate, List.sum_replicate]

/-- C6: at every position where the trailing window meets the
minimum-observation count and consists of equal (present) values — so the
rolling standard deviation is zero — the z-score is missing, never infinite
and never a division error. -/
theorem c6_zscore_degeneracy (s : List Fq) (n i : ℕ) (q0 : ℚ)
    (hi : i < s.length)
    (hmin : minObs n ≤ (window s n i).length)
    (hconst : ∀ x ∈ window s n i, x = Fq.fin q0) :
    zAt s n i = F.nan := by
  have hn : 0 < n := by
    by_contra hn0
    have hn' : n = 0 := by omega
    subst hn'
    have hlen0 : (window s 0 i).length = 0 := by
      simp only [window, List.length_drop, List.length_take, Nat.sub_zero]
      omega
    rw [hlen0] at hmin
    have h2 : (2 : ℕ) ≤ minObs 0 := le_max_left _ _
    omega
  have hxmem := self_mem_window s n i hi hn
  have hx : s.getD i .nan = Fq.fin q0 := hconst _ hxmem
  have hwlen : (window s n i).length ≠ 0 := by
    have h2 : 2 ≤ minObs n := le_max_left _ _
    omega
  have hobs : finObs (window s n i) = List.replicate (window s n i).length q0 :=
    finObs_const _ _ hconst
  have hinf : hasInfty (window s n i) = false := by
    simp only [hasInfty, List.any_eq_false]
    intro x hxw
    rw [hconst x hxw]
    simp
  have hmeta : zMeta s n i = some (q0, q0, 0) := by
    unfold zMeta
    rw [hinf, hobs, hx]
    simp only [List.length_replicate, Bool.false_eq_true, if_false]
    rw [if_neg (by omega), meanQ_replicate _ _ hwlen, varPop_replicate _ _ hwlen]
  unfold zAt
  rw [hmeta]
  simp

/-- Witness for C6: a constant series of 3s, window 3, position 4. -/
theorem c6_zscore_degeneracy_witness :
    minObs 3 ≤ (window (List.replicate 5 (Fq.fin 3)) 3 4).length ∧
      zAt (List.replicate 5 (Fq.fin 3)) 3 4 = F.nan :=
  ⟨by decide,
   c6_zscore_degeneracy (List.replicate 5 (Fq.fin 3)) 3 4 3 (by decide) (by decide)
     (by decide)⟩

/-! ## C9: bar imbalance is a number in [-1, 1] -/

theorem getCol_micro_imb (bars : List Bar) (freq : String) :
    getCol (computeForOne bars freq) "bar_imbalance"
      = (barImbCol (sortBars bars)).map (fun (q : ℚ) => F.fin (q : ℝ)) := rfl

theorem upVol_nonneg (b : Bar) (hv : 0 ≤ b.volume) : 0 ≤ upVol b := by
  unfold upVol; split <;> simp [hv]

theorem dnVol_nonneg (b : Bar) (hv : 0 ≤ b.volume) : 0 ≤ dnVol b := by
  unfold dnVol; split <;> simp [hv]

theorem barImbAt_bounds (b : Bar) (hv : 0 ≤ b.volume) :
    -1 ≤ barImbAt b ∧ barImbAt b ≤ 1 := by
  have hu := upVol_nonneg b hv
  have hd := dnVol_nonneg b hv
  unfold barImbAt
  by_cases h : upVol b + dnVol b = 0
  · rw [if_pos h]; norm_num
  · rw [if_neg h]
    have hpos : 0 < upVol b + dnVol b := lt_of_le_of_ne (by linarith) (Ne.symm h)
    constructor
    · rw [le_div_iff₀ hpos]; linarith
    · rw [div_le_one hpos]; linarith

/-- C9: on a panel with non-negative volumes, every `bar_imbalance` value is
a plain number in the closed interval [-1, 1]; a row with zero up-volume and
zero down-volume yields exactly 0. -/
theorem c9_bar_imbalance (bars : List Bar) (freq : String)
    (hvol : ∀ b ∈ bars, 0 ≤ b.volume) :
    ∀ i, i < bars.length →
      ∃ q : ℚ,
        (getCol (computeForOne bars freq) "bar_imbalance").getD i F.nan = F.fin (q : ℝ) ∧
        -1 ≤ q ∧ q ≤ 1 ∧
        (upVol ((sortBars bars).getD i bar0) = 0 ∧ dnVol ((sortBars bars).getD i bar0) = 0
          → q = 0) := by
  intro i hi
  have hlen : (sortBars bars).length = bars.length := List.length_insertionSort _ _
  have hib : i < (sortBars bars).length := by omega
  have hmem : (sortBars bars).getD i bar0 ∈ bars := by
    rw [List.getD_eq_getElem _ bar0 hib]
    exact (List.perm_insertionSort _ bars).mem_iff.mp (List.getElem_mem hib)
  have hv := hvol _ hmem
  refine ⟨barImbAt ((sortBars bars).getD i bar0), ?_, (barImbAt_bounds _ hv).1,
    (barImbAt_bounds _ hv).2, ?_⟩
  · rw [getCol_micro_imb]
    unfold barImbCol
    rw [getD_map_lt (fun (q : ℚ) => F.fin (q : ℝ)) ((sortBars bars).map barImbAt) i F.nan 0
        (by simpa using hib),
      getD_map_lt barImbAt (sortBars bars) i 0 bar0 hib]
  · rintro ⟨h1, h2⟩
    unfold barImbAt
    rw [h1, h2]
    norm_num

/-- The one-bar panel of the C9 witness. -/
def w9bars : List Bar := [⟨0, 1, 2, 1, 2, 3⟩]

/-- Witness for C9 at a concrete one-bar panel. -/
theorem c9_bar_imbalance_witness :
    (∀ b ∈ w9bars, 0 ≤ b.volume) ∧
      ∃ q : ℚ,
        (getCol (computeForOne w9bars "1d") "bar_imbalance").getD 0 F.nan = F.fin (q : ℝ) ∧
        -1 ≤ q ∧ q ≤ 1 ∧
        (upVol ((sortBars w9bars).getD 0 bar0) = 0 ∧ dnVol ((sortBars w9bars).getD 0 bar0) = 0
          → q = 0) :=
  ⟨by decide, c9_bar_imbalance w9bars "1d" (by decide) 0 (by decide)⟩

/-! ## C2: `_safe_ratio` at a zero denominator -/

theorem argsortIdx_length (ts : List ℤ) : (argsortIdx ts).length = ts.length := by
  simp [argsortIdx, List.length_insertionSort]

theorem applyPerm_length (p : List ℕ) (c : List ℚ) :
    (applyPerm p c).length = p.length := by simp [applyPerm]

theorem colQ_length (t : OptsIn) (oc : Option (List ℚ)) :
    (colQ t oc).length = t.times.length := by
  simp [colQ, applyPerm_length, argsortIdx_length]

theorem totColQ_length (t : OptsIn) : (totColQ t).length = t.times.length := by
  unfold totColQ
  cases t.total_volume with
  | some l => simp [applyPerm_length, argsortIdx_length]
  | none => simp [colQ_length]

theorem Fq.div_nan_right (x : Fq) : Fq.div x .nan = .nan := by cases x <;> rfl

/-- C2 (amended): a zero `call_volume` makes `pcr` exactly 0.0 and a zero
`total_volume` makes `at_ask_bias` exactly 0.0 — `_safe_ratio` fills the
missing quotient with 0.0 instead of leaving it missing. -/
theorem c2_safe_ratio_zero (t : OptsIn) (i : ℕ) (hi : i < t.times.length) :
    ((colQ t t.call_volume).getD i 0 = 0 → (pcrCol t).getD i Fq.nan = Fq.fin 0) ∧
    ((totColQ t).getD i 0 = 0 → (atAskBiasCol t).getD i Fq.nan = Fq.fin 0) := by
  constructor
  · intro hz
    unfold pcrCol safeDiv0 fillnaZero
    have hnum : i < ((colQ t t.put_volume).map Fq.fin).length := by
      simpa [colQ_length] using hi
    have hden :
        i < (replaceZeroNan (replaceZeroNan ((colQ t t.call_volume).map Fq.fin))).length := by
      simpa [replaceZeroNan, colQ_length] using hi
    rw [getD_map_lt _ _ i Fq.nan Fq.nan (by simp only [List.length_zipWith]; omega),
      getD_zipWith_lt Fq.div _ _ i Fq.nan Fq.nan Fq.nan hnum hden]
    have hdv :
        (replaceZeroNan (replaceZeroNan ((colQ t t.call_volume).map Fq.fin))).getD i Fq.nan
          = Fq.nan := by
      unfold replaceZeroNan
      rw [getD_map_lt _ _ i Fq.nan Fq.nan (by simpa [colQ_length] using hi),
        getD_map_lt _ _ i Fq.nan Fq.nan (by simpa [colQ_length] using hi),
        getD_map_lt Fq.fin _ i Fq.nan 0 (by simpa [colQ_length] using hi), hz]
      simp
    rw [hdv, Fq.div_nan_right]
    simp
  · intro hz
    unfold atAskBiasCol safeDiv0 fillnaZero
    have hnum :
        i < ((List.zipWith (· - ·) (colQ t t.at_ask_volume) (colQ t t.at_bid_volume)).map
          Fq.fin).length := by
      simp only [List.length_map, List.length_zipWith, colQ_length]
      omega
    have hden : i < (replaceZeroNan (replaceZeroNan ((totColQ t).map Fq.fin))).length := by
      simpa [replaceZeroNan, totColQ_length] using hi
    rw [getD_map_lt _ _ i Fq.nan Fq.nan (by simp only [List.length_zipWith]; omega),
      getD_zipWith_lt Fq.div _ _ i Fq.nan Fq.nan Fq.nan hnum hden]
    have hdv :
        (replaceZeroNan (replaceZeroNan ((totColQ t).map Fq.fin))).getD i Fq.nan = Fq.nan := by
      unfold replaceZeroNan
      rw [getD_map_lt _ _ i Fq.nan Fq.nan (by simpa [totColQ_length] using hi),
        getD_map_lt _ _ i Fq.nan Fq.nan (by simpa [totColQ_length] using hi),
        getD_map_lt Fq.fin _ i Fq.nan 0 (by simpa [totColQ_length] using hi), hz]
      simp
    rw [hdv, Fq.div_nan_right]
    simp

/-- The one-row options table with `call_volume = 0` and `total_volume = 0`. -/
def optsC2 : OptsIn :=
  ⟨[0], some [5], some [0], some [3], some [1], some [0], none, none, none, none⟩

/-- Counterexample for C2 as stated: at a row with zero `call_volume` the pcr
value is the number 0, not missing; likewise `at_ask_bias` at zero
`total_volume`. -/
theorem c2_counterexample :
    (pcrCol optsC2).getD 0 Fq.nan = Fq.fin 0 ∧
    (atAskBiasCol optsC2).getD 0 Fq.nan = Fq.fin 0 ∧ Fq.fin 0 ≠ Fq.nan := by decide

/-- Witness for the amended C2 at the concrete table. -/
theorem c2_safe_ratio_zero_witness :
    (colQ optsC2 optsC2.call_volume).getD 0 0 = 0 ∧
      (pcrCol optsC2).getD 0 Fq.nan = Fq.fin 0 :=
  ⟨by decide, (c2_safe_ratio_zero optsC2 0 (by decide)).1 (by decide)⟩

/-! ## C10: totality of `_forward_log_return` -/

theorem shiftedClose_cases (cs : List ℚ) (p : ℤ) (i : ℕ) :
    (∃ q, shiftedClose cs p i = .fin q) ∨ shiftedClose cs p i = .nan := by
  unfold shiftedClose
  split
  · exact Or.inl ⟨_, rfl⟩
  · exact Or.inr rfl

/-- C10 (amended): `_forward_log_return` is total — it always returns a series
of the same length — and at every position whose current close is nonzero the
entry is a finite log return or missing; a zero current close can instead
yield +infinity (see the counterexample). -/
theorem c10_forward_log_return_total (cs : List ℚ) (p : ℤ) (hp : 0 ≤ p) :
    (forwardLogReturn cs p).length = cs.length ∧
    ∀ i, i < cs.length → cs.getD i 0 ≠ 0 →
      (∃ r, (forwardLogReturn cs p).getD i F.nan = F.fin r) ∨
        (forwardLogReturn cs p).getD i F.nan = F.nan := by
  constructor
  · simp [forwardLogReturn]
  · intro i hi hnz
    unfold forwardLogReturn
    rw [getD_range_map, if_pos hi]
    rcases shiftedClose_cases cs p i with ⟨f, hf⟩ | hf
    · rw [hf]
      set c := cs.getD i 0 with hc
      have hdv : Fq.div (Fq.fin f) (Fq.fin c) = Fq.fin (f / c) := by
        simp [Fq.div, hnz]
      rw [hdv]
      by_cases hq : 0 < f / c
      · exact Or.inl ⟨Real.log ((f / c : ℚ) : ℝ), by simp [pyLogGuard, hq]⟩
      · exact Or.inr (by simp [pyLogGuard, hq])
    · rw [hf]
      exact Or.inr (by simp [Fq.div, pyLogGuard])

/-- Counterexample for C10 as stated: a zero close with a positive future
close produces +infinity (`5/0 = inf`, `log(inf) = inf`), not a finite value
and not missing. -/
theorem c10_counterexample :
    (forwardLogReturn [0, 5] 1).getD 0 F.nan = F.inf ∧ F.inf ≠ F.nan := by
  refine ⟨rfl, fun h => F.noConfusion h⟩

/-- Witness for the amended C10 at a concrete series. -/
theorem c10_forward_log_return_total_witness :
    ((2 : ℚ) ≠ 0) ∧
      ((∃ r, (forwardLogReturn [2, 4] 1).getD 0 F.nan = F.fin r) ∨
        (forwardLogReturn [2, 4] 1).getD 0 F.nan = F.nan) :=
  ⟨by decide,
   (c10_forward_log_return_total [2, 4] 1 (by decide)).2 0 (by decide) (by decide)⟩

/-! ## C3: the forward-fill frame of the joiner -/

/-- A column of the joined (not yet forward-filled) panel. -/
def joinedCol (m o : MTable) (name : String) : List F := getCol (joinOnly m o) name

theorem getCol_joinFeatures_some (m o : MTable) (name : String) :
    getCol (joinFeatures m (some o)) name = ffillLimit2 (joinedCol m o name) :=
  getCol_mapCols ffillLimit2 (joinOnly m o) name rfl

/-- C3 (amended): after the join, `ffill(limit=2)` is applied to every column
alike — microstructure and volume/flow columns included.  A value present
after the join is never changed; a missing value directly after a present one,
or after one missing row that follows a present one, is filled with that
present value; a missing value preceded by at least three consecutive missing
rows stays missing. -/
theorem c3_join_ffill_frame (m o : MTable) (name : String) (i : ℕ) :
    (i < (joinedCol m o name).length →
      ((joinedCol m o name).getD i F.nan).isNan = false →
      (getCol (joinFeatures m (some o)) name).getD i F.nan
        = (joinedCol m o name).getD i F.nan) ∧
    (i + 1 < (joinedCol m o name).length →
      ((joinedCol m o name).getD i F.nan).isNan = false →
      ((joinedCol m o name).getD (i + 1) F.nan).isNan = true →
      (getCol (joinFeatures m (some o)) name).getD (i + 1) F.nan
        = (joinedCol m o name).getD i F.nan) ∧
    (i + 2 < (joinedCol m o name).length →
      ((joinedCol m o name).getD i F.nan).isNan = false →
      ((joinedCol m o name).getD (i + 1) F.nan).isNan = true →
      ((joinedCol m o name).getD (i + 2) F.nan).isNan = true →
      (getCol (joinFeatures m (some o)) name).getD (i + 2) F.nan
        = (joinedCol m o name).getD i F.nan) ∧
    (i + 2 < (joinedCol m o name).length →
      ((joinedCol m o name).getD i F.nan).isNan = true →
      ((joinedCol m o name).getD (i + 1) F.nan).isNan = true →
      ((joinedCol m o name).getD (i + 2) F.nan).isNan = true →
      ((getCol (joinFeatures m (some o)) name).getD (i + 2) F.nan).isNan = true) := by
  rw [getCol_joinFeatures_some]
  exact ⟨fun h hp => ffillGo_keep _ _ _ _ h hp,
    fun h hp hn => ffillGo_fill1 _ _ _ _ h hp hn,
    fun h hp hn1 hn2 => ffillGo_fill2 _ _ _ _ h hp hn1 hn2,
    fun h hn0 hn1 hn2 => ffillGo_nofill3 _ _ _ _ h hn0 hn1 hn2⟩

/-- The microstructure side of the C3 counterexample (three bars). -/
def microC3 : MTable := ⟨[0, 1, 2], [("ret_1", [F.fin 1, F.fin 1, F.fin 1])]⟩

/-- The options side of the C3 counterexample: a `pcr` value at the first
timestamp only. -/
def optsC3 : MTable := ⟨[0], [("pcr", [F.fin 2])]⟩

/-- Counterexample for C3 as stated: `pcr` is a volume/flow column, it is
missing at row 1 after the join, yet the forward-fill of the joiner changes it to
the row-0 value. -/
theorem c3_counterexample :
    (joinedCol microC3 optsC3 "pcr").getD 1 F.nan = F.nan ∧
    (getCol (joinFeatures microC3 (some optsC3)) "pcr").getD 1 F.nan = F.fin 2 ∧
    F.fin 2 ≠ F.nan :=
  ⟨rfl, rfl, fun h => F.noConfusion h⟩

/-- Witness for the amended C3 at the concrete joined panel. -/
theorem c3_join_ffill_frame_witness :
    ((joinedCol microC3 optsC3 "pcr").getD 0 F.nan).isNan = false ∧
    ((joinedCol microC3 optsC3 "pcr").getD 1 F.nan).isNan = true ∧
    (getCol (joinFeatures microC3 (some optsC3)) "pcr").getD 1 F.nan
      = (joinedCol microC3 optsC3 "pcr").getD 0 F.nan :=
  ⟨rfl, rfl, (c3_join_ffill_frame microC3 optsC3 "pcr" 0).2.1 (by decide) rfl rfl⟩

/-! ## C7: empty options input -/

theorem getCol_joinFeatures_none (m : MTable) (name : String) :
    getCol (joinFeatures m none) name = ffillLimit2 (getCol m name) :=
  getCol_mapCols ffillLimit2 m name rfl

/-- C7 (amended): on an empty options input the options calculator produces an
empty feature set, and the joiner keeps the microstructure panel index,
column names and every present value — but it still applies `ffill(limit=2)`,
so missing microstructure entries within two rows of a present value are
filled (the output is not always identical to the microstructure panel). -/
theorem c7_empty_options :
    optionsMain none = MTable.empty ∧
    ∀ m : MTable,
      (joinFeatures m none).times = m.times ∧
      (joinFeatures m none).cols.map Prod.fst = m.cols.map Prod.fst ∧
      ∀ name i, i < (getCol m name).length →
        ((getCol m name).getD i F.nan).isNan = false →
        (getCol (joinFeatures m none) name).getD i F.nan
          = (getCol m name).getD i F.nan := by
  refine ⟨rfl, fun m => ⟨rfl, ?_, ?_⟩⟩
  · show (mapCols ffillLimit2 m).cols.map Prod.fst = m.cols.map Prod.fst
    simp [mapCols, List.map_map, Function.comp]
  · intro name i hi hp
    rw [getCol_joinFeatures_none]
    exact ffillGo_keep _ _ _ _ hi hp

/-- The one-row microstructure table of the C7 witness. -/
def w7m : MTable := ⟨[0], [("ret_1", [F.fin 7])]⟩

/-- Witness for the amended C7 at a concrete table. -/
theorem c7_empty_options_witness :
    ((getCol w7m "ret_1").getD 0 F.nan).isNan = false ∧
    (getCol (joinFeatures w7m none) "ret_1").getD 0 F.nan
      = (getCol w7m "ret_1").getD 0 F.nan :=
  ⟨rfl, (c7_empty_options.2 w7m).2.2 "ret_1" 0 (by decide) rfl⟩

/-! ## Shared microstructure column lemmas -/

theorem getCol_micro_ret (bars : List Bar) (freq : String) :
    getCol (computeForOne bars freq) "ret_1" = retCol (sortBars bars) := rfl

theorem getCol_micro_cvd (bars : List Bar) (freq : String) :
    getCol (computeForOne bars freq) "cvd_proxy"
      = (cvdQ (sortBars bars)).map (fun (q : ℚ) => F.fin (q : ℝ)) := rfl

theorem getCol_micro_vwap (bars : List Bar) (freq : String) :
    getCol (computeForOne bars freq) "vwap" = vwapCol (sortBars bars) := rfl

theorem getCol_micro_z50 (bars : List Bar) (freq : String) :
    getCol (computeForOne bars freq) "cvd_z_50"
      = zCol ((cvdQ (sortBars bars)).map Fq.fin) 50 := rfl

theorem sortBars_eq_self (bs : List Bar) (h : ChronoSorted bs) : sortBars bs = bs :=
  List.Sorted.insertionSort_eq (h.imp le_of_lt)

/-! ## C7 counterexample: a realizable microstructure panel changed by the
joiner even though the options table is empty -/

/-- A panel of 52 bars: an up bar, a down bar, then 50 flat bars.  The CVD series is
`1, -1, -1, ...`, so `cvd_z_50` is finite from row 15 to row 49 (the window
still contains the initial variation) and missing from row 50 on (the window
becomes constant) — an interior missing run that `ffill(limit=2)` fills. -/
def barsC7 : List Bar :=
  ⟨0, 1, 2, 1, 2, 1⟩ :: ⟨1, 2, 2, 1, 1, 2⟩ ::
    (List.range 50).map (fun (k : ℕ) => ⟨(k : ℤ) + 2, 1, 1, 1, 1, 1⟩)

/-- The CVD series of `barsC7`, lifted to floats. -/
def cvdLC7 : List Fq := Fq.fin 1 :: List.replicate 51 (Fq.fin (-1))

theorem map_const_on {a b : Type} (l : List a) (f : a -> b) (c : b)
    (h : forall x, x ∈ l -> f x = c) : l.map f = List.replicate l.length c := by
  induction l with
  | nil => rfl
  | cons y ys ih =>
    simp only [List.map_cons, List.length_cons, List.replicate_succ]
    rw [h y (by simp)]
    exact congrArg (c :: ·) (ih (fun x hx => h x (by simp [hx])))

theorem chrono_barsC7 : ChronoSorted barsC7 := by
  unfold ChronoSorted barsC7
  decide

theorem deltaCol_barsC7 : deltaCol barsC7 = 1 :: -2 :: List.replicate 50 0 := by
  unfold deltaCol barsC7
  simp only [List.map_cons]
  have h0 : deltaVolAt ⟨0, 1, 2, 1, 2, 1⟩ = 1 := by norm_num [deltaVolAt, signQ]
  have h1 : deltaVolAt ⟨1, 2, 2, 1, 1, 2⟩ = -2 := by norm_num [deltaVolAt, signQ]
  have h2 : ((List.range 50).map (fun (k : ℕ) => (⟨(k : ℤ) + 2, 1, 1, 1, 1, 1⟩ : Bar))).map
      deltaVolAt = List.replicate 50 0 := by
    rw [List.map_map]
    have := map_const_on (List.range 50)
      (deltaVolAt ∘ fun (k : ℕ) => (⟨(k : ℤ) + 2, 1, 1, 1, 1, 1⟩ : Bar)) 0
      (fun x _ => by norm_num [Function.comp, deltaVolAt, signQ])
    simpa using this
  rw [h0, h1, h2]

theorem cvdQ_barsC7 : cvdQ barsC7 = 1 :: List.replicate 51 (-1) := by
  have hd : barsC7.map deltaVolAt = 1 :: -2 :: List.replicate 50 0 := deltaCol_barsC7
  have hlen : barsC7.length = 52 := by
    simp only [barsC7, List.length_cons, List.length_map, List.length_range]
  apply List.ext_getElem
  . simp only [cvdQ, List.length_map, List.length_range, hlen, List.length_cons,
      List.length_replicate]
  . intro i hi1 hi2
    have hi : i < 52 := by
      simpa only [cvdQ, List.length_map, List.length_range, hlen] using hi1
    have hget : (cvdQ barsC7)[i] = cvdAt barsC7 i := by
      simp [cvdQ, hlen]
    rw [hget]
    have htake : cvdAt barsC7 i = ((barsC7.map deltaVolAt).take (i + 1)).sum := by
      unfold cvdAt
      rw [List.map_take]
    cases i with
    | zero =>
      rw [htake, hd]
      simp
    | succ j =>
      have hj : j <= 50 := by omega
      have htk : ((1 : ℚ) :: -2 :: List.replicate 50 0).take (j + 1 + 1)
          = 1 :: -2 :: List.replicate j 0 := by
        rw [List.take_succ_cons, List.take_succ_cons, List.take_replicate,
          Nat.min_eq_left hj]
      rw [htake, hd, htk]
      have hrhs : ((1 : ℚ) :: List.replicate 51 (-1))[j + 1] = -1 := by
        rw [List.getElem_cons_succ, List.getElem_replicate]
      rw [hrhs]
      rw [List.sum_cons, List.sum_cons, List.sum_replicate]
      norm_num

theorem cvdLC7_eq : (cvdQ (sortBars barsC7)).map Fq.fin = cvdLC7 := by
  rw [sortBars_eq_self barsC7 chrono_barsC7, cvdQ_barsC7]
  simp [cvdLC7, List.map_replicate]

theorem finObs_rep_fin (k : ℕ) (a : ℚ) :
    finObs (List.replicate k (Fq.fin a)) = List.replicate k a := by
  induction k with
  | zero => rfl
  | succ j ih => simp only [List.replicate_succ, finObs, List.filterMap_cons] at ih ⊢; rw [ih]

theorem hasInfty_rep_fin (k : ℕ) (a : ℚ) :
    hasInfty (List.replicate k (Fq.fin a)) = false := by
  simp only [hasInfty, List.any_eq_false]
  intro x hx
  rw [List.eq_of_mem_replicate hx]
  simp

theorem window_C7_49 : window cvdLC7 50 49 = Fq.fin 1 :: List.replicate 49 (Fq.fin (-1)) := by
  show ((cvdLC7.take 50).drop (50 - 50)) = _
  norm_num [cvdLC7, List.take_succ_cons, List.take_replicate]

theorem window_C7_50 : window cvdLC7 50 50 = List.replicate 50 (Fq.fin (-1)) := by
  show ((cvdLC7.take 51).drop (51 - 50)) = _
  norm_num [cvdLC7, List.take_succ_cons, List.take_replicate]

theorem getD_C7 (k : ℕ) (h1 : 1 <= k) (h2 : k <= 51) :
    cvdLC7.getD k Fq.nan = Fq.fin (-1) := by
  show (Fq.fin 1 :: List.replicate 51 (Fq.fin (-1))).getD k Fq.nan = _
  obtain ⟨j, rfl⟩ : ∃ j, k = j + 1 := ⟨k - 1, by omega⟩
  rw [List.getD_cons_succ, List.getD_eq_getElem _ _ (by simp; omega), List.getElem_replicate]

theorem zMeta_C7_49 : zMeta cvdLC7 50 49 = some (-1, -24/25, 49/625) := by
  have hobs : finObs (Fq.fin 1 :: List.replicate 49 (Fq.fin (-1)))
      = 1 :: List.replicate 49 (-1) := by
    have h := finObs_rep_fin 49 (-1)
    simp only [finObs, List.filterMap_cons] at h ⊢
    rw [h]
  have hinf : hasInfty (Fq.fin 1 :: List.replicate 49 (Fq.fin (-1))) = false := by
    have h := hasInfty_rep_fin 49 (-1)
    simp only [hasInfty, List.any_cons] at h ⊢
    rw [h]
    simp
  have hmean : meanQ ((1 : ℚ) :: List.replicate 49 (-1)) = -24/25 := by
    rw [meanQ, List.sum_cons, List.sum_replicate]
    norm_num
  have hvar : varPop ((1 : ℚ) :: List.replicate 49 (-1)) = 49/625 := by
    rw [varPop, List.map_cons, List.map_replicate, List.sum_cons, List.sum_replicate, hmean]
    norm_num
  unfold zMeta
  rw [window_C7_49, hinf, hobs, getD_C7 49 (by norm_num) (by norm_num)]
  simp only [Bool.false_eq_true, if_false, List.length_cons, List.length_replicate]
  rw [if_neg (by norm_num [minObs]), hmean, hvar]

theorem zMeta_C7_50 : zMeta cvdLC7 50 50 = some (-1, -1, 0) := by
  unfold zMeta
  rw [window_C7_50, finObs_rep_fin, hasInfty_rep_fin,
    getD_C7 50 (by norm_num) (by norm_num)]
  simp only [Bool.false_eq_true, if_false, List.length_replicate]
  rw [if_neg (by norm_num [minObs]),
    meanQ_replicate 50 (-1) (by norm_num), varPop_replicate 50 (-1) (by norm_num)]

theorem zAt_eq_of_meta (s : List Fq) (n i : ℕ) (x m v : ℚ)
    (h : zMeta s n i = some (x, m, v)) :
    zAt s n i
      = if v = 0 then (if x = m then F.nan else if m < x then F.inf else F.ninf)
        else F.fin (((x : ℝ) - (m : ℝ)) / Real.sqrt (v : ℝ)) := by
  unfold zAt
  rw [h]

theorem zAt_C7_49 :
    zAt cvdLC7 50 49
      = F.fin ((((-1 : ℚ) : ℝ) - ((-24/25 : ℚ) : ℝ)) / Real.sqrt (((49/625 : ℚ)) : ℝ)) := by
  rw [zAt_eq_of_meta cvdLC7 50 49 (-1) (-24/25) (49/625) zMeta_C7_49, if_neg (by norm_num)]

theorem zAt_C7_50 : zAt cvdLC7 50 50 = F.nan := by
  rw [zAt_eq_of_meta cvdLC7 50 50 (-1) (-1) 0 zMeta_C7_50, if_pos rfl, if_pos rfl]

/-- Counterexample for C7 as stated: with an empty options table the
output differs from the microstructure output — `ffill(limit=2)` fills the
missing `cvd_z_50` value at row 50 from the finite value at row 49. -/
theorem c7_counterexample :
    joinFeatures (computeForOne barsC7 "1d") none ≠ computeForOne barsC7 "1d" := by
  intro h
  have hcol := congrArg (fun t => (getCol t "cvd_z_50").getD 50 F.nan) h
  simp only at hcol
  rw [getCol_joinFeatures_none, getCol_micro_z50, cvdLC7_eq] at hcol
  have hlen : (zCol cvdLC7 50).length = 52 := by decide
  have h49 : (zCol cvdLC7 50).getD 49 F.nan = zAt cvdLC7 50 49 := by
    unfold zCol
    rw [getD_range_map, if_pos (by decide)]
  have h50 : (zCol cvdLC7 50).getD 50 F.nan = zAt cvdLC7 50 50 := by
    unfold zCol
    rw [getD_range_map, if_pos (by decide)]
  have hfill : (ffillLimit2 (zCol cvdLC7 50)).getD 50 F.nan
      = (zCol cvdLC7 50).getD 49 F.nan := by
    have := ffillGo_fill1 (zCol cvdLC7 50) none 0 49 (by rw [hlen]; omega)
      (by rw [h49, zAt_C7_49]; rfl) (by rw [show (49:ℕ)+1 = 50 from rfl, h50, zAt_C7_50]; rfl)
    simpa [ffillLimit2] using this
  rw [hfill, h49, zAt_C7_49, h50, zAt_C7_50] at hcol
  exact F.noConfusion hcol

/-! ## C1: causality of the microstructure calculator -/

theorem getD_eq_of_take_eq {α : Type} (l1 l2 : List α) (k i : ℕ) (d : α)
    (h : l1.take k = l2.take k) (hi : i < k) : l1.getD i d = l2.getD i d := by
  rw [← getD_take_eq l1 k i d hi, ← getD_take_eq l2 k i d hi, h]

theorem take_eq_of_take_eq {α : Type} (l1 l2 : List α) (k j : ℕ)
    (h : l1.take k = l2.take k) (hj : j ≤ k) : l1.take j = l2.take j := by
  have hmin : min j k = j := Nat.min_eq_left hj
  calc l1.take j = (l1.take k).take j := by rw [List.take_take, hmin]
    _ = (l2.take k).take j := by rw [h]
    _ = l2.take j := by rw [List.take_take, hmin]

/-- C1: if two sorted bar panels of the same length agree on every bar except
the close of the last one, then the `ret_1`, `cvd_proxy` and `vwap` series of
`_compute_for_one` agree at every earlier row — mutating the last close never
changes a feature value at an earlier timestamp. -/
theorem c1_causality (b1 b2 : List Bar) (freq : String) (n : ℕ)
    (hn1 : b1.length = n) (hn2 : b2.length = n)
    (hs1 : ChronoSorted b1) (hs2 : ChronoSorted b2)
    (htake : b1.take (n - 1) = b2.take (n - 1))
    (hexc : b1.map (fun b => (b.ts, b.open_, b.high, b.low, b.volume))
      = b2.map (fun b => (b.ts, b.open_, b.high, b.low, b.volume))) :
    ∀ i, i + 1 < n →
      (getCol (computeForOne b1 freq) "ret_1").getD i F.nan
          = (getCol (computeForOne b2 freq) "ret_1").getD i F.nan ∧
      (getCol (computeForOne b1 freq) "cvd_proxy").getD i F.nan
          = (getCol (computeForOne b2 freq) "cvd_proxy").getD i F.nan ∧
      (getCol (computeForOne b1 freq) "vwap").getD i F.nan
          = (getCol (computeForOne b2 freq) "vwap").getD i F.nan := by
  intro i hi
  have e1 : sortBars b1 = b1 := sortBars_eq_self b1 hs1
  have e2 : sortBars b2 = b2 := sortBars_eq_self b2 hs2
  have htk : b1.take (i + 1) = b2.take (i + 1) :=
    take_eq_of_take_eq b1 b2 (n - 1) (i + 1) htake (by omega)
  have hct : (closes b1).take (n - 1) = (closes b2).take (n - 1) := by
    simp only [closes, ← List.map_take, htake]
  refine ⟨?_, ?_, ?_⟩
  · rw [getCol_micro_ret, getCol_micro_ret, e1, e2]
    unfold retCol
    rw [getD_range_map, getD_range_map, hn1, hn2, if_pos (by omega), if_pos (by omega)]
    unfold retAt
    by_cases h0 : i = 0
    · rw [if_pos h0, if_pos h0]
    · rw [if_neg h0, if_neg h0]
      have hc1 : closeAt b1 i = closeAt b2 i :=
        getD_eq_of_take_eq _ _ (n - 1) i 0 hct (by omega)
      have hc2 : closeAt b1 (i - 1) = closeAt b2 (i - 1) :=
        getD_eq_of_take_eq _ _ (n - 1) (i - 1) 0 hct (by omega)
      rw [hc1, hc2]
  · rw [getCol_micro_cvd, getCol_micro_cvd, e1, e2]
    rw [getD_map_lt (fun (q : ℚ) => F.fin (q : ℝ)) _ i F.nan 0 (by simp [cvdQ]; omega),
      getD_map_lt (fun (q : ℚ) => F.fin (q : ℝ)) _ i F.nan 0 (by simp [cvdQ]; omega)]
    unfold cvdQ
    rw [getD_range_map, getD_range_map, hn1, hn2, if_pos (by omega), if_pos (by omega)]
    unfold cvdAt
    rw [htk]
  · rw [getCol_micro_vwap, getCol_micro_vwap, e1, e2]
    unfold vwapCol
    rw [getD_range_map, getD_range_map, hn1, hn2, if_pos (by omega), if_pos (by omega)]
    unfold vwapAt
    rw [htk]

/-- First panel of the C1 witness. -/
def w1a : List Bar := [⟨0, 1, 2, 1, 2, 1⟩, ⟨1, 2, 2, 1, 1, 3⟩, ⟨2, 1, 2, 1, 2, 1⟩]

/-- Second panel of the C1 witness: same bars except the last close. -/
def w1b : List Bar := [⟨0, 1, 2, 1, 2, 1⟩, ⟨1, 2, 2, 1, 1, 3⟩, ⟨2, 1, 2, 1, 9, 1⟩]

/-- Witness for C1: perturbing the last close of a concrete 3-bar panel
leaves the earlier `ret_1`, `cvd_proxy` and `vwap` values unchanged. -/
theorem c1_causality_witness :
    ChronoSorted w1a ∧ ChronoSorted w1b ∧ w1a.take 2 = w1b.take 2 ∧
    (getCol (computeForOne w1a "1d") "ret_1").getD 1 F.nan
        = (getCol (computeForOne w1b "1d") "ret_1").getD 1 F.nan ∧
    (getCol (computeForOne w1a "1d") "cvd_proxy").getD 1 F.nan
        = (getCol (computeForOne w1b "1d") "cvd_proxy").getD 1 F.nan ∧
    (getCol (computeForOne w1a "1d") "vwap").getD 1 F.nan
        = (getCol (computeForOne w1b "1d") "vwap").getD 1 F.nan :=
  ⟨by decide, by decide, by decide,
    (c1_causality w1a w1b "1d" 3 rfl rfl (by decide) (by decide) (by decide) (by decide)
      1 (by decide)).1,
    (c1_causality w1a w1b "1d" 3 rfl rfl (by decide) (by decide) (by decide) (by decide)
      1 (by decide)).2.1,
    (c1_causality w1a w1b "1d" 3 rfl rfl (by decide) (by decide) (by decide) (by decide)
      1 (by decide)).2.2⟩

/-! ## C4: no calendar-time mode exists -/

/-- The irregular two-bar panel (10 days apart) of the C4 counterexample. -/
def irrBars : List Bar := [⟨0, 100, 100, 100, 100, 1⟩, ⟨10, 200, 200, 200, 200, 1⟩]

/-- Counterexample for C4 as stated: on an irregular panel, for both supported
frequencies `compute_labels` leaves row 0 of `fwd_ret_1w` missing (the fixed
bar-count shift runs off the end), whereas calendar-time pairing of horizon
`1w` (7 timestamp units) would label row 0 with `200/100 − 1 = 1`; no argument
of `compute_labels` selects the calendar behaviour. -/
theorem c4_counterexample :
    computeLabels irrBars ["1w"] "1d" = Except.ok [("fwd_ret_1w", [F.nan, F.nan])] ∧
    computeLabels irrBars ["1w"] "1h" = Except.ok [("fwd_ret_1w", [F.nan, F.nan])] ∧
    calendarLabels irrBars 7 = [F.fin (((200 : ℚ) / 100 - 1 : ℚ) : ℝ), F.nan] ∧
    ((200 : ℚ) / 100 - 1 : ℚ) = 1 ∧
    F.fin (((200 : ℚ) / 100 - 1 : ℚ) : ℝ) ≠ F.nan :=
  ⟨rfl, rfl, rfl, by norm_num, fun h => F.noConfusion h⟩

/-- C4 (amended): `compute_labels` implements only the bar-count alignment —
its output is a function of the close sequence alone, unchanged under any
retiming of the bars that keeps them sorted, so no calendar-time mode is
selectable. -/
theorem c4_bar_count_only (b1 b2 : List Bar) (horizons : List String) (freq : String)
    (h1 : ChronoSorted b1) (h2 : ChronoSorted b2) (hc : closes b1 = closes b2) :
    computeLabels b1 horizons freq = computeLabels b2 horizons freq := by
  unfold computeLabels
  simp only [sortBars_eq_self b1 h1, sortBars_eq_self b2 h2, hc]

/-- First panel of the C4 witness (daily spacing). -/
def w4a : List Bar := [⟨0, 100, 100, 100, 100, 1⟩, ⟨1, 200, 200, 200, 200, 1⟩]

/-- Second panel of the C4 witness: same closes, wildly different times. -/
def w4b : List Bar := [⟨0, 100, 100, 100, 100, 1⟩, ⟨500, 200, 200, 200, 200, 1⟩]

/-- Witness for the amended C4 at two concrete retimed panels. -/
theorem c4_bar_count_only_witness :
    ChronoSorted w4a ∧ ChronoSorted w4b ∧ closes w4a = closes w4b ∧
      computeLabels w4a ["1d"] "1d" = computeLabels w4b ["1d"] "1d" :=
  ⟨by decide, by decide, by decide,
    c4_bar_count_only w4a w4b ["1d"] "1d" (by decide) (by decide) (by decide)⟩

/-! ## C5: the end-to-end scenario -/

/-- The four-bar panel of the end-to-end scenario in the spec. -/
def barsC5 : List Bar :=
  [⟨0, 100, 100, 100, 100, 1⟩, ⟨1, 110, 110, 110, 110, 1⟩,
   ⟨2, 99, 99, 99, 99, 1⟩, ⟨3, 105, 105, 105, 105, 1⟩]

theorem retAt_pos (bs : List Bar) (i : ℕ) (h0 : i ≠ 0) (a b : ℚ)
    (ha : closeAt bs (i - 1) = a) (hb : closeAt bs i = b) (hpa : 0 < a) (hpb : 0 < b) :
    retAt bs i = F.fin (Real.log ((b : ℝ) / (a : ℝ))) := by
  unfold retAt
  rw [if_neg h0, ha, hb]
  unfold npLog
  rw [if_pos hpb, if_pos hpa]
  simp only [F.sub]
  rw [← Real.log_div (ne_of_gt (by exact_mod_cast hpb)) (ne_of_gt (by exact_mod_cast hpa))]

theorem Fq.div_fin_fin (a b : ℚ) (hb : b ≠ 0) : Fq.div (.fin a) (.fin b) = .fin (a / b) := by
  simp [Fq.div, hb]

theorem pyLogGuard_pos (q : ℚ) (h : 0 < q) : pyLogGuard (.fin q) = F.fin (Real.log (q : ℝ)) := by
  simp [pyLogGuard, h]

/-- C5: on the single-symbol panel with closes 100, 110, 99, 105 the
microstructure calculator returns
`ret_1 = [missing, ln(110/100), ln(99/110), ln(105/99)]` and the label
generator (bar-count, horizon `1d`, daily cadence) returns
`fwd_ret_1d = [ln(110/100), ln(99/110), ln(105/99), missing]`. -/
theorem c5_end_to_end :
    getCol (computeForOne barsC5 "1d") "ret_1"
      = [F.nan, F.fin (Real.log ((110 : ℝ) / 100)), F.fin (Real.log ((99 : ℝ) / 110)),
         F.fin (Real.log ((105 : ℝ) / 99))] ∧
    computeLabels barsC5 ["1d"] "1d"
      = Except.ok [("fwd_ret_1d",
          [F.fin (Real.log ((110 : ℝ) / 100)), F.fin (Real.log ((99 : ℝ) / 110)),
           F.fin (Real.log ((105 : ℝ) / 99)), F.nan])] := by
  have hsort : sortBars barsC5 = barsC5 := sortBars_eq_self _ (by decide)
  have c0 : closeAt barsC5 0 = 100 := rfl
  have c1 : closeAt barsC5 1 = 110 := rfl
  have c2 : closeAt barsC5 2 = 99 := rfl
  have c3 : closeAt barsC5 3 = 105 := rfl
  constructor
  · rw [getCol_micro_ret, hsort]
    unfold retCol
    rw [show barsC5.length = 4 from rfl, show List.range 4 = [0, 1, 2, 3] from rfl]
    simp only [List.map_cons, List.map_nil]
    have r0 : retAt barsC5 0 = F.nan := rfl
    have r1 : retAt barsC5 1 = F.fin (Real.log ((110 : ℝ) / 100)) := by
      rw [retAt_pos barsC5 1 (by norm_num) 100 110 c0 c1 (by norm_num) (by norm_num)]
      norm_num
    have r2 : retAt barsC5 2 = F.fin (Real.log ((99 : ℝ) / 110)) := by
      rw [retAt_pos barsC5 2 (by norm_num) 110 99 c1 c2 (by norm_num) (by norm_num)]
      norm_num
    have r3 : retAt barsC5 3 = F.fin (Real.log ((105 : ℝ) / 99)) := by
      rw [retAt_pos barsC5 3 (by norm_num) 99 105 c2 c3 (by norm_num) (by norm_num)]
      norm_num
    rw [r0, r1, r2, r3]
  · have hcl : computeLabels barsC5 ["1d"] "1d"
        = Except.ok [("fwd_ret_1d", forwardLogReturn (closes (sortBars barsC5)) 1)] := rfl
    rw [hcl, hsort, show closes barsC5 = [100, 110, 99, 105] from rfl]
    have hfwd : forwardLogReturn [100, 110, 99, 105] 1
        = [F.fin (Real.log ((110 : ℝ) / 100)), F.fin (Real.log ((99 : ℝ) / 110)),
           F.fin (Real.log ((105 : ℝ) / 99)), F.nan] := by
      unfold forwardLogReturn
      rw [show ([100, 110, 99, 105] : List ℚ).length = 4 from rfl,
        show List.range 4 = [0, 1, 2, 3] from rfl]
      simp only [List.map_cons, List.map_nil]
      have e0 : pyLogGuard (Fq.div (shiftedClose [100, 110, 99, 105] 1 0)
          (.fin (([100, 110, 99, 105] : List ℚ).getD 0 0)))
            = F.fin (Real.log ((110 : ℝ) / 100)) := by
        rw [show shiftedClose [100, 110, 99, 105] 1 0 = .fin 110 from rfl,
          show (([100, 110, 99, 105] : List ℚ).getD 0 0) = 100 from rfl,
          Fq.div_fin_fin 110 100 (by norm_num), pyLogGuard_pos _ (by norm_num)]
        congr 1
        push_cast
        norm_num
      have e1 : pyLogGuard (Fq.div (shiftedClose [100, 110, 99, 105] 1 1)
          (.fin (([100, 110, 99, 105] : List ℚ).getD 1 0)))
            = F.fin (Real.log ((99 : ℝ) / 110)) := by
        rw [show shiftedClose [100, 110, 99, 105] 1 1 = .fin 99 from rfl,
          show (([100, 110, 99, 105] : List ℚ).getD 1 0) = 110 from rfl,
          Fq.div_fin_fin 99 110 (by norm_num), pyLogGuard_pos _ (by norm_num)]
        congr 1
        push_cast
        norm_num
      have e2 : pyLogGuard (Fq.div (shiftedClose [100, 110, 99, 105] 1 2)
          (.fin (([100, 110, 99, 105] : List ℚ).getD 2 0)))
            = F.fin (Real.log ((105 : ℝ) / 99)) := by
        rw [show shiftedClose [100, 110, 99, 105] 1 2 = .fin 105 from rfl,
          show (([100, 110, 99, 105] : List ℚ).getD 2 0) = 99 from rfl,
          Fq.div_fin_fin 105 99 (by norm_num), pyLogGuard_pos _ (by norm_num)]
        congr 1
        push_cast
        norm_num
      have e3 : pyLogGuard (Fq.div (shiftedClose [100, 110, 99, 105] 1 3)
          (.fin (([100, 110, 99, 105] : List ℚ).getD 3 0))) = F.nan := rfl
      rw [e0, e1, e2, e3]
    rw [hfwd]

/-! ## C8: horizon parsing -/

/-- The `<int>` part of the claimed horizon form: an optional sign followed by
a nonempty run of decimal digits. -/
def claimedIntString (l : List Char) : Prop :=
  ∃ ds : List Char, (l = ds ∨ l = '-' :: ds ∨ l = '+' :: ds) ∧ ds ≠ [] ∧ ∀ c ∈ ds, c.isDigit

/-- The claimed strict `<int><d|w|m>` horizon form (lowercase unit letter). -/
def claimedForm (s : String) : Prop :=
  ∃ l u, s.data = l ++ [u] ∧ claimedIntString l ∧ (u = 'd' ∨ u = 'w' ∨ u = 'm')

/-- Characters for which the embedded `pyInt` agrees with Python `int()`:
digits, an explicit sign, or letters (no whitespace, no underscore). -/
def plainChar (c : Char) : Bool := c.isDigit || c == '+' || c == '-' || c.isAlpha

theorem getLastD_append_singleton {α : Type} (l : List α) (a d : α) :
    (l ++ [a]).getLastD d = a := by
  induction l generalizing d with
  | nil => rfl
  | cons x xs ih => simpa [List.getLastD] using ih x

theorem dropLast_append_singleton {α : Type} (l : List α) (a : α) :
    (l ++ [a]).dropLast = l := by
  simp

theorem append_singleton_inj {α : Type} (l1 l2 : List α) (a b : α)
    (h : l1 ++ [a] = l2 ++ [b]) : l1 = l2 ∧ a = b := by
  have h1 := congrArg List.dropLast h
  have h2 := congrArg (fun t => t.getLastD a) h
  rw [dropLast_append_singleton, dropLast_append_singleton] at h1
  simp only [getLastD_append_singleton] at h2
  exact ⟨h1, h2⟩

theorem pyInt_isSome_iff (l : List Char) :
    ((pyInt ⟨l⟩).isSome = true) ↔ claimedIntString l := by
  cases l with
  | nil =>
    constructor
    · intro h
      exact absurd h (by simp [pyInt])
    · rintro ⟨ds, hds, hne, -⟩
      rcases hds with h | h | h
      · exact absurd h.symm hne
      · exact absurd h (by simp)
      · exact absurd h (by simp)
  | cons c rest =>
    by_cases hcp : c = '+'
    · subst hcp
      simp only [pyInt, if_pos rfl]
      constructor
      · intro h
        by_cases hcond : rest ≠ [] ∧ rest.all Char.isDigit
        · exact ⟨rest, Or.inr (Or.inr rfl), hcond.1,
            fun x hx => List.all_eq_true.mp hcond.2 x hx⟩
        · rw [if_neg hcond] at h
          exact absurd h (by simp)
      · rintro ⟨ds, hds, hne, hdig⟩
        have hcond : rest ≠ [] ∧ rest.all Char.isDigit := by
          rcases hds with h | h | h
          · exfalso
            have hmem : ('+' : Char) ∈ ds := by rw [← h]; simp
            exact absurd (hdig _ hmem) (by decide)
          · exfalso
            simp only [List.cons.injEq] at h
            exact absurd h.1 (by decide)
          · simp only [List.cons.injEq, true_and] at h
            subst h
            exact ⟨hne, List.all_eq_true.mpr hdig⟩
        rw [if_pos hcond]
        simp
    · by_cases hcm : c = '-'
      · subst hcm
        simp only [pyInt, if_neg (by decide : ¬('-' : Char) = '+'), if_pos rfl]
        constructor
        · intro h
          by_cases hcond : rest ≠ [] ∧ rest.all Char.isDigit
          · exact ⟨rest, Or.inr (Or.inl rfl), hcond.1,
              fun x hx => List.all_eq_true.mp hcond.2 x hx⟩
          · rw [if_neg hcond] at h
            exact absurd h (by simp)
        · rintro ⟨ds, hds, hne, hdig⟩
          have hcond : rest ≠ [] ∧ rest.all Char.isDigit := by
            rcases hds with h | h | h
            · exfalso
              have hmem : ('-' : Char) ∈ ds := by rw [← h]; simp
              exact absurd (hdig _ hmem) (by decide)
            · simp only [List.cons.injEq, true_and] at h
              subst h
              exact ⟨hne, List.all_eq_true.mpr hdig⟩
            · exfalso
              simp only [List.cons.injEq] at h
              exact absurd h.1 (by decide)
          rw [if_pos hcond]
          simp
      · simp only [pyInt, if_neg hcp, if_neg hcm]
        constructor
        · intro h
          by_cases hcond : (c :: rest).all Char.isDigit
          · exact ⟨c :: rest, Or.inl rfl, (by simp),
              fun x hx => List.all_eq_true.mp hcond x hx⟩
          · rw [if_neg hcond] at h
            exact absurd h (by simp)
        · rintro ⟨ds, hds, hne, hdig⟩
          have hcond : (c :: rest).all Char.isDigit := by
            rcases hds with h | h | h
            · rw [h]
              exact List.all_eq_true.mpr hdig
            · exfalso
              simp only [List.cons.injEq] at h
              exact hcm h.1
            · exfalso
              simp only [List.cons.injEq] at h
              exact hcp h.1
          rw [if_pos hcond]
          simp

theorem pyInt_digits (ds : List Char) (hne : ds ≠ []) (hdig : ∀ c ∈ ds, c.isDigit) :
    pyInt ⟨ds⟩ = some (digitsVal ds : ℤ) := by
  cases ds with
  | nil => exact absurd rfl hne
  | cons c rest =>
    have hc : c.isDigit = true := hdig c (by simp)
    have hcp : c ≠ '+' := fun h => by subst h; exact absurd hc (by decide)
    have hcm : c ≠ '-' := fun h => by subst h; exact absurd hc (by decide)
    simp only [pyInt, if_neg hcp, if_neg hcm,
      if_pos (List.all_eq_true.mpr (fun x hx => hdig x hx))]

theorem horizonPeriods_freq_ok (freq : String)
    (hf : strLower freq = "1h" ∨ strLower freq = "1d") :
    ¬(strLower freq ≠ "1h" ∧ strLower freq ≠ "1d") := by
  rcases hf with h | h <;> simp [h]

theorem horizonPeriods_general (freq : String)
    (hf : strLower freq = "1h" ∨ strLower freq = "1d")
    (ds : List Char) (hne : ds ≠ []) (hdig : ∀ c ∈ ds, c.isDigit) (u : Char) :
    horizonPeriods freq ⟨ds ++ [u]⟩
      = if u.toLower = 'd' then .ok (dayBars freq * (digitsVal ds : ℤ))
        else if u.toLower = 'w' then .ok (dayBars freq * (7 * (digitsVal ds : ℤ)))
        else if u.toLower = 'm' then .ok (dayBars freq * (30 * (digitsVal ds : ℤ)))
        else .error ("Unrecognized horizon format: " ++ String.mk (ds ++ [u])) := by
  cases ds with
  | nil => exact absurd rfl hne
  | cons c crest =>
    by_cases h1d : (⟨(c :: crest) ++ [u]⟩ : String) = "1d"
    · have hdat : (c :: crest) ++ [u] = ['1'] ++ ['d'] := congrArg String.data h1d
      obtain ⟨hds, hu⟩ := append_singleton_inj _ _ _ _ hdat
      subst hu
      rw [hds] at h1d
      rw [hds, h1d]
      unfold horizonPeriods
      rw [if_neg (horizonPeriods_freq_ok freq hf), if_pos rfl,
        if_pos (show 'd'.toLower = 'd' from by decide),
        show ((digitsVal ['1'] : ℤ)) = 1 from by decide, mul_one]
    · by_cases h1w : (⟨(c :: crest) ++ [u]⟩ : String) = "1w"
      · have hdat : (c :: crest) ++ [u] = ['1'] ++ ['w'] := congrArg String.data h1w
        obtain ⟨hds, hu⟩ := append_singleton_inj _ _ _ _ hdat
        subst hu
        rw [hds] at h1w
        rw [hds, h1w]
        unfold horizonPeriods
        rw [if_neg (horizonPeriods_freq_ok freq hf),
          if_neg (show ¬("1w" : String) = "1d" from by decide), if_pos rfl,
          if_neg (show ¬ 'w'.toLower = 'd' from by decide),
          if_pos (show 'w'.toLower = 'w' from by decide),
          show ((digitsVal ['1'] : ℤ)) = 1 from by decide, mul_one]
      · by_cases h1m : (⟨(c :: crest) ++ [u]⟩ : String) = "1m"
        · have hdat : (c :: crest) ++ [u] = ['1'] ++ ['m'] := congrArg String.data h1m
          obtain ⟨hds, hu⟩ := append_singleton_inj _ _ _ _ hdat
          subst hu
          rw [hds] at h1m
          rw [hds, h1m]
          unfold horizonPeriods
          rw [if_neg (horizonPeriods_freq_ok freq hf),
            if_neg (show ¬("1m" : String) = "1d" from by decide),
            if_neg (show ¬("1m" : String) = "1w" from by decide), if_pos rfl,
            if_neg (show ¬ 'm'.toLower = 'd' from by decide),
            if_neg (show ¬ 'm'.toLower = 'w' from by decide),
            if_pos (show 'm'.toLower = 'm' from by decide),
            show ((digitsVal ['1'] : ℤ)) = 1 from by decide, mul_one]
        · unfold horizonPeriods
          rw [if_neg (horizonPeriods_freq_ok freq hf), if_neg h1d, if_neg h1w, if_neg h1m]
          have hlast : ((c :: crest ++ [u]).getLastD ' ') = u :=
            getLastD_append_singleton (c :: crest) u ' '
          have hdrop : (c :: crest ++ [u]).dropLast = c :: crest :=
            dropLast_append_singleton (c :: crest) u
          rw [show (String.data ⟨(c :: crest) ++ [u]⟩) = c :: crest ++ [u] from rfl]
          unfold horizonTail
          rw [if_neg (by simp), hdrop, pyInt_digits (c :: crest) hne hdig, hlast]

/-- Counterexample for C8 as stated: the horizon string `2D` is not of the
form `<int><d|w|m>` (its unit letter is uppercase), yet `_horizon_periods`
accepts it — the code lowercases the unit letter before matching. -/
theorem c8_counterexample :
    horizonPeriods "1d" "2D" = Except.ok 2 ∧ ¬ claimedForm "2D" := by
  constructor
  · rfl
  · rintro ⟨l, u, hdata, -, hu⟩
    have h2 : ('2' :: ['D'] : List Char) = l ++ [u] := hdata
    match l, h2 with
    | [], h =>
      have hlen := congrArg List.length h
      simp at hlen
    | [a], h =>
      have hu2 : ('D' : Char) = u := by
        simpa using congrArg (fun t => t.getD 1 ' ') h
      subst hu2
      rcases hu with hx | hx | hx <;> exact absurd hx (by decide)
    | a :: b :: t, h =>
      have hlen := congrArg List.length h
      simp [List.length_append] at hlen

/-- C8 (amended): with a frequency whose lowercased form is `1h` or `1d` and a
horizon free of whitespace and underscores, `_horizon_periods` succeeds
exactly on horizons of the form optional sign, digits, then a `d`/`w`/`m`
unit letter in either case, and it maps `<val>d` / `<val>w` / `<val>m` to
`val*day_bars` / `val*7*day_bars` / `val*30*day_bars` with `day_bars` 24 at
hourly and 1 at daily cadence; the empty horizon and any other-frequency call
raise. -/
theorem c8_horizon_parsing :
    (∀ freq ds u, (strLower freq = "1h" ∨ strLower freq = "1d") →
      (ds ++ [u]).all plainChar = true →
      ((horizonPeriods freq ⟨ds ++ [u]⟩).isOk = true ↔
        (claimedIntString ds ∧ (u.toLower = 'd' ∨ u.toLower = 'w' ∨ u.toLower = 'm')))) ∧
    (∀ freq, (horizonPeriods freq "").isOk = false) ∧
    (∀ freq ds, (strLower freq = "1h" ∨ strLower freq = "1d") → ds ≠ [] →
      (∀ c ∈ ds, c.isDigit) →
      horizonPeriods freq ⟨ds ++ ['d']⟩ = .ok (dayBars freq * (digitsVal ds : ℤ)) ∧
      horizonPeriods freq ⟨ds ++ ['w']⟩ = .ok (dayBars freq * (7 * (digitsVal ds : ℤ))) ∧
      horizonPeriods freq ⟨ds ++ ['m']⟩ = .ok (dayBars freq * (30 * (digitsVal ds : ℤ)))) ∧
    (∀ freq hz, ¬(strLower freq = "1h" ∨ strLower freq = "1d") →
      (horizonPeriods freq hz).isOk = false) ∧
    (dayBars "1h" = 24 ∧ dayBars "1d" = 1) := by
  have halias : ∀ freq, (strLower freq = "1h" ∨ strLower freq = "1d") →
      ∀ hz : String, (hz = "1d" ∨ hz = "1w" ∨ hz = "1m") →
      (horizonPeriods freq hz).isOk = true := by
    intro freq hf hz hz3
    unfold horizonPeriods
    rw [if_neg (horizonPeriods_freq_ok freq hf)]
    rcases hz3 with h | h | h
    · rw [if_pos h]
      rfl
    · subst h
      rw [if_neg (by decide), if_pos rfl]
      rfl
    · subst h
      rw [if_neg (by decide), if_neg (by decide), if_pos rfl]
      rfl
  refine ⟨?_, ?_, ?_, ?_, by decide, by decide⟩
  · intro freq ds u hf _
    by_cases h1d : (⟨ds ++ [u]⟩ : String) = "1d"
    · have hdat : ds ++ [u] = ['1'] ++ ['d'] := congrArg String.data h1d
      obtain ⟨hds, hu⟩ := append_singleton_inj _ _ _ _ hdat
      subst hu
      rw [hds] at h1d
      rw [hds, h1d]
      rw [halias freq hf "1d" (Or.inl rfl)]
      simp only [true_iff]
      exact ⟨⟨['1'], Or.inl rfl, by decide, by decide⟩, Or.inl (by decide)⟩
    · by_cases h1w : (⟨ds ++ [u]⟩ : String) = "1w"
      · have hdat : ds ++ [u] = ['1'] ++ ['w'] := congrArg String.data h1w
        obtain ⟨hds, hu⟩ := append_singleton_inj _ _ _ _ hdat
        subst hu
        rw [hds] at h1w
        rw [hds, h1w]
        rw [halias freq hf "1w" (Or.inr (Or.inl rfl))]
        simp only [true_iff]
        exact ⟨⟨['1'], Or.inl rfl, by decide, by decide⟩, Or.inr (Or.inl (by decide))⟩
      · by_cases h1m : (⟨ds ++ [u]⟩ : String) = "1m"
        · have hdat : ds ++ [u] = ['1'] ++ ['m'] := congrArg String.data h1m
          obtain ⟨hds, hu⟩ := append_singleton_inj _ _ _ _ hdat
          subst hu
          rw [hds] at h1m
          rw [hds, h1m]
          rw [halias freq hf "1m" (Or.inr (Or.inr rfl))]
          simp only [true_iff]
          exact ⟨⟨['1'], Or.inl rfl, by decide, by decide⟩, Or.inr (Or.inr (by decide))⟩
        · cases hpy : pyInt ⟨ds⟩ with
          | none =>
            have hok : (horizonPeriods freq ⟨ds ++ [u]⟩).isOk = false := by
              cases ds with
              | nil =>
                unfold horizonPeriods
                rw [if_neg (horizonPeriods_freq_ok freq hf), if_neg h1d, if_neg h1w,
                  if_neg h1m,
                  show (String.data ⟨([] : List Char) ++ [u]⟩) = [u] from rfl]
                unfold horizonTail
                rw [if_neg (by simp), show ([u] : List Char).dropLast = [] from rfl,
                  show pyInt ⟨([] : List Char)⟩ = none from rfl]
                rfl
              | cons c crest =>
                unfold horizonPeriods
                rw [if_neg (horizonPeriods_freq_ok freq hf), if_neg h1d, if_neg h1w,
                  if_neg h1m,
                  show (String.data ⟨(c :: crest) ++ [u]⟩) = c :: crest ++ [u] from rfl]
                have hdrop : (c :: crest ++ [u]).dropLast = c :: crest :=
                  dropLast_append_singleton (c :: crest) u
                unfold horizonTail
                rw [if_neg (by simp), hdrop, hpy]
                rfl
            rw [hok]
            simp only [Bool.false_eq_true, false_iff]
            rintro ⟨hint, -⟩
            have := (pyInt_isSome_iff ds).mpr hint
            rw [hpy] at this
            exact absurd this (by simp)
          | some v =>
            have hint : claimedIntString ds := (pyInt_isSome_iff ds).mp (by rw [hpy]; rfl)
            have hcompute : horizonPeriods freq ⟨ds ++ [u]⟩
                = if u.toLower = 'd' then .ok (dayBars freq * v)
                  else if u.toLower = 'w' then .ok (dayBars freq * (7 * v))
                  else if u.toLower = 'm' then .ok (dayBars freq * (30 * v))
                  else .error ("Unrecognized horizon format: " ++ String.mk (ds ++ [u])) := by
              cases ds with
              | nil => exact absurd hpy (by simp [pyInt])
              | cons c crest =>
                unfold horizonPeriods
                rw [if_neg (horizonPeriods_freq_ok freq hf), if_neg h1d, if_neg h1w,
                  if_neg h1m,
                  show (String.data ⟨(c :: crest) ++ [u]⟩) = c :: crest ++ [u] from rfl]
                have hlast : ((c :: crest ++ [u]).getLastD ' ') = u :=
                  getLastD_append_singleton (c :: crest) u ' '
                have hdrop : (c :: crest ++ [u]).dropLast = c :: crest :=
                  dropLast_append_singleton (c :: crest) u
                unfold horizonTail
                rw [if_neg (by simp), hdrop, hpy, hlast]
            rw [hcompute]
            by_cases hud : u.toLower = 'd'
            · rw [if_pos hud]
              exact ⟨fun _ => ⟨hint, Or.inl hud⟩, fun _ => rfl⟩
            · rw [if_neg hud]
              by_cases huw : u.toLower = 'w'
              · rw [if_pos huw]
                exact ⟨fun _ => ⟨hint, Or.inr (Or.inl huw)⟩, fun _ => rfl⟩
              · rw [if_neg huw]
                by_cases hum : u.toLower = 'm'
                · rw [if_pos hum]
                  exact ⟨fun _ => ⟨hint, Or.inr (Or.inr hum)⟩, fun _ => rfl⟩
                · rw [if_neg hum]
                  constructor
                  · intro h
                    exact absurd h (by simp [Except.isOk, Except.toBool])
                  · rintro ⟨-, hu⟩
                    rcases hu with h | h | h
                    · exact absurd h hud
                    · exact absurd h huw
                    · exact absurd h hum
  · intro freq
    by_cases hf : strLower freq ≠ "1h" ∧ strLower freq ≠ "1d"
    · unfold horizonPeriods
      rw [if_pos hf]
      rfl
    · unfold horizonPeriods
      rw [if_neg hf, if_neg (by decide), if_neg (by decide), if_neg (by decide)]
      rfl
  · intro freq ds hf hne hdig
    refine ⟨?_, ?_, ?_⟩
    · rw [horizonPeriods_general freq hf ds hne hdig 'd', if_pos (by decide)]
    · rw [horizonPeriods_general freq hf ds hne hdig 'w', if_neg (by decide),
        if_pos (by decide)]
    · rw [horizonPeriods_general freq hf ds hne hdig 'm', if_neg (by decide),
        if_neg (by decide), if_pos (by decide)]
  · intro freq hz hf
    unfold horizonPeriods
    rw [if_pos (by constructor <;> intro h <;> exact hf (by simp [h]))]
    rfl

/-- Witness for the amended C8: `3d` at hourly cadence maps to 72 bars. -/
theorem c8_horizon_parsing_witness :
    (∀ c ∈ ['3'], c.isDigit) ∧ horizonPeriods "1h" "3d" = Except.ok 72 :=
  ⟨by decide, by
    have h := (c8_horizon_parsing.2.2.1 "1h" ['3'] (Or.inl (by decide)) (by decide)
      (by decide)).1
    exact h⟩

end Orderflow
